import Mathlib

/-!
# Verification of the fexpr filter-expression scanner and parser

A shallow embedding of the fexpr repository (a filter query language
tokenizer and parser) and proofs about it.

Strings are modelled as lists of bytes (`List Nat`, each element < 256),
exactly as the Go scanner holds a `[]byte` buffer and a byte position.
Runes (Unicode code points) are `Nat`; the Go code decodes one rune at a
time with `utf8.DecodeRune` and the end-of-input marker is the rune 0.

Loops of the source are embedded as fuel-indexed recursive functions; every
loop is invoked with fuel `data.length + 1 - pos`, which exceeds the number
of iterations any loop can perform because each iteration consumes at least
one byte (proved below).  A loop whose fuel runs out behaves as if the
input had ended; the proofs show this branch is never reached at the
supplied fuel.
-/

namespace Fexpr

/-- Embeds Go `utf8.DecodeRune`: decodes the first UTF-8 code point of a
byte list, returning the rune and the number of bytes consumed.  Invalid or
truncated encodings yield `(0xFFFD, 1)`; the empty list yields
`(0xFFFD, 0)` (Go returns `RuneError, 0`). -/
def decodeRune : List Nat → Nat × Nat
  | [] => (0xFFFD, 0)
  | b0 :: rest =>
    if b0 < 0x80 then (b0, 1)
    else if b0 < 0xC2 then (0xFFFD, 1)
    else if b0 < 0xE0 then
      match rest with
      | b1 :: _ =>
        if 0x80 ≤ b1 ∧ b1 ≤ 0xBF then ((b0 - 0xC0) * 0x40 + (b1 - 0x80), 2)
        else (0xFFFD, 1)
      | _ => (0xFFFD, 1)
    else if b0 < 0xF0 then
      match rest with
      | b1 :: b2 :: _ =>
        if (if b0 = 0xE0 then 0xA0 else 0x80) ≤ b1 ∧
           b1 ≤ (if b0 = 0xED then 0x9F else 0xBF) ∧
           0x80 ≤ b2 ∧ b2 ≤ 0xBF then
          ((b0 - 0xE0) * 0x1000 + (b1 - 0x80) * 0x40 + (b2 - 0x80), 3)
        else (0xFFFD, 1)
      | _ => (0xFFFD, 1)
    else if b0 < 0xF5 then
      match rest with
      | b1 :: b2 :: b3 :: _ =>
        if (if b0 = 0xF0 then 0x90 else 0x80) ≤ b1 ∧
           b1 ≤ (if b0 = 0xF4 then 0x8F else 0xBF) ∧
           0x80 ≤ b2 ∧ b2 ≤ 0xBF ∧ 0x80 ≤ b3 ∧ b3 ≤ 0xBF then
          ((b0 - 0xF0) * 0x40000 + (b1 - 0x80) * 0x1000 + (b2 - 0x80) * 0x40
            + (b3 - 0x80), 4)
        else (0xFFFD, 1)
      | _ => (0xFFFD, 1)
    else (0xFFFD, 1)

/-- Embeds Go `utf8.EncodeRune` as used by `bytes.Buffer.WriteRune`: the
UTF-8 encoding of a rune, with surrogates and out-of-range values encoded
as U+FFFD. -/
def encodeRune (r : Nat) : List Nat :=
  if r < 0x80 then [r]
  else if r < 0x800 then [0xC0 + r / 0x40, 0x80 + r % 0x40]
  else if 0xD800 ≤ r ∧ r ≤ 0xDFFF then [0xEF, 0xBF, 0xBD]
  else if r < 0x10000 then
    [0xE0 + r / 0x1000, 0x80 + r / 0x40 % 0x40, 0x80 + r % 0x40]
  else if r ≤ 0x10FFFF then
    [0xF0 + r / 0x40000, 0x80 + r / 0x1000 % 0x40, 0x80 + r / 0x40 % 0x40,
      0x80 + r % 0x40]
  else [0xEF, 0xBF, 0xBD]

/-- Embeds Go `TokenType` (scanner.go). -/
inductive TokenType where
  | unexpected
  | eof
  | whitespace
  | join
  | sign
  | identifier
  | function
  | number
  | text
  | group
  | comment
  deriving DecidableEq, Repr

/-- Embeds Go `Token` (scanner.go): `Type`, `Literal` (a byte string), and
the `Meta` payload, which the scanner only ever uses to carry the argument
tokens of a function call. -/
inductive Token where
  | mk (type : TokenType) (literal : List Nat) (args : List Token)

/-- The `Type` field of a token. -/
def Token.type : Token → TokenType
  | .mk t _ _ => t

/-- The `Literal` field of a token. -/
def Token.literal : Token → List Nat
  | .mk _ l _ => l

/-- The function-argument tokens carried in a token's `Meta` field. -/
def Token.args : Token → List Token
  | .mk _ _ a => a

/-- The scanner's error values, one constructor per `fmt.Errorf` site in
scanner.go.  The `arg*Err` constructors model the wrapping (`%w`) of a
sub-scanner's error inside `scanFunctionArgs`. -/
inductive ScanErr where
  | unexpectedChar (ch : Nat)
  | invalidNumber (literal : List Nat)
  | invalidText (literal : List Nat)
  | invalidComment
  | maxFuncDepth (max : Nat)
  | invalidFuncName (name : List Nat)
  | invalidIdentifier (literal : List Nat)
  | invalidSign (literal : List Nat)
  | invalidJoin (literal : List Nat)
  | missingBrackets (open_ : Nat)
  | funcMissingOpen (name : List Nat)
  | funcMissingClose (name : List Nat)
  | expectedComma (name : List Nat)
  | unexpectedComma (name : List Nat)
  | unsupportedArgChar (ch : Nat) (name : List Nat)
  | argWhitespaceErr (name : List Nat) (inner : ScanErr)
  | argCommentErr (name : List Nat) (inner : ScanErr)
  | argIdentErr (argLiteral : List Nat) (name : List Nat) (inner : ScanErr)
  | argNumberErr (argLiteral : List Nat) (name : List Nat) (inner : ScanErr)
  | argTextErr (argLiteral : List Nat) (name : List Nat) (inner : ScanErr)
  deriving DecidableEq, Repr

/-- Embeds Go `Scanner` (scanner.go): an immutable byte buffer, a byte
position and the maximum function-nesting depth. -/
structure Scanner where
  data : List Nat
  pos : Nat
  maxFuncDepth : Nat

/-- Embeds Go `NewScanner`. -/
def NewScanner (data : List Nat) : Scanner :=
  { data := data, pos := 0, maxFuncDepth := 3 }

/-- Embeds Go `(*Scanner).read`: returns the next rune (0, the `eof`
marker, at the end of the buffer) and the advanced scanner. -/
def Scanner.read (s : Scanner) : Nat × Scanner :=
  if s.data.length ≤ s.pos then (0, s)
  else
    let d := decodeRune (s.data.drop s.pos)
    (d.1, { s with pos := s.pos + d.2 })

/-- Embeds Go `(*Scanner).unread`: reverts the position one BYTE back. -/
def Scanner.unread (s : Scanner) : Scanner :=
  if 0 < s.pos then { s with pos := s.pos - 1 } else s

/-- Embeds Go `isWhitespaceRune`. -/
def isWhitespaceRune (ch : Nat) : Bool := ch == 32 || ch == 9 || ch == 10

/-- Embeds Go `isLetterRune`. -/
def isLetterRune (ch : Nat) : Bool :=
  (97 ≤ ch && ch ≤ 122) || (65 ≤ ch && ch ≤ 90)

/-- Embeds Go `isDigitRune`. -/
def isDigitRune (ch : Nat) : Bool := 48 ≤ ch && ch ≤ 57

/-- Embeds Go `isTextStartRune` (single or double quote). -/
def isTextStartRune (ch : Nat) : Bool := ch == 39 || ch == 34

/-- Embeds Go `isNumberStartRune` (minus sign or digit). -/
def isNumberStartRune (ch : Nat) : Bool := ch == 45 || isDigitRune ch

/-- Embeds Go `isSignStartRune` (one of `= ? ! > < ~`). -/
def isSignStartRune (ch : Nat) : Bool :=
  ch == 61 || ch == 63 || ch == 33 || ch == 62 || ch == 60 || ch == 126

/-- Embeds Go `isJoinStartRune` (`&` or `|`). -/
def isJoinStartRune (ch : Nat) : Bool := ch == 38 || ch == 124

/-- Embeds Go `isGroupStartRune` (`(`). -/
def isGroupStartRune (ch : Nat) : Bool := ch == 40

/-- Embeds Go `isCommentStartRune` (`/`). -/
def isCommentStartRune (ch : Nat) : Bool := ch == 47

/-- Embeds Go `isIdentifierSpecialStartRune` (`@`, `_` or `#`). -/
def isIdentifierSpecialStartRune (ch : Nat) : Bool :=
  ch == 64 || ch == 95 || ch == 35

/-- Embeds Go `isIdentifierStartRune`. -/
def isIdentifierStartRune (ch : Nat) : Bool :=
  isLetterRune ch || isIdentifierSpecialStartRune ch

/-- Embeds Go `isIdentifierCombineRune` (`.` or `:`). -/
def isIdentifierCombineRune (ch : Nat) : Bool := ch == 46 || ch == 58

/-- Embeds Go `isSignOperator`: the sixteen supported sign operators, as
byte strings. -/
def isSignOperator (literal : List Nat) : Bool :=
  literal == [61] ||           -- =
  literal == [33, 61] ||       -- !=
  literal == [60] ||           -- <
  literal == [60, 61] ||       -- <=
  literal == [62] ||           -- >
  literal == [62, 61] ||       -- >=
  literal == [126] ||          -- ~
  literal == [33, 126] ||      -- !~
  literal == [63, 61] ||       -- ?=
  literal == [63, 33, 61] ||   -- ?!=
  literal == [63, 126] ||      -- ?~
  literal == [63, 33, 126] ||  -- ?!~
  literal == [63, 60] ||       -- ?<
  literal == [63, 60, 61] ||   -- ?<=
  literal == [63, 62] ||       -- ?>
  literal == [63, 62, 61]      -- ?>=

/-- Embeds Go `isJoinOperator`: `&&` or `||`, as byte strings. -/
def isJoinOperator (literal : List Nat) : Bool :=
  literal == [38, 38] || literal == [124, 124]

/-- Embeds Go `isValidIdentifier`.  The Go code indexes `literal[0]` and
`literal[length-1]`; every caller passes a buffer holding at least one
rune, so the empty case (on which Go would panic) is unreachable and is
mapped to `false`. -/
def isValidIdentifier : List Nat → Bool
  | [] => false
  | c :: rest =>
    !isIdentifierCombineRune ((c :: rest).getLastD 0) &&
      (!(rest == []) || !isIdentifierSpecialStartRune c)

/-- Result of a scanning function: the Go pair `(Token, error)` together
with the scanner state after the call. -/
abbrev ScanResult := (Token × Option ScanErr) × Scanner

/-- Embeds Go `strings.ReplaceAll` (non-overlapping, leftmost-first), as a
fuel-indexed loop; `replaceAll` below supplies sufficient fuel.  The empty
pattern case (never used by the scanner) returns the string unchanged. -/
def replaceAllLoop : Nat → List Nat → List Nat → List Nat → List Nat
  | 0, s, _, _ => s
  | fuel + 1, s, pat, rep =>
    match s with
    | [] => []
    | a :: rest =>
      if !(pat == []) && pat.isPrefixOf (a :: rest) then
        rep ++ replaceAllLoop fuel ((a :: rest).drop pat.length) pat rep
      else a :: replaceAllLoop fuel rest pat rep

/-- Embeds Go `strings.ReplaceAll`. -/
def replaceAll (s pat rep : List Nat) : List Nat :=
  replaceAllLoop (s.length + 1) s pat rep

/-- The ASCII bytes trimmed by Go `strings.TrimSpace`.  (Go also trims the
two non-ASCII Unicode spaces U+0085 and U+00A0; no claim depends on the
trimmed literal of a comment token, so the embedding keeps the ASCII
set.) -/
def isTrimSpaceByte (b : Nat) : Bool :=
  b == 9 || b == 10 || b == 11 || b == 12 || b == 13 || b == 32

/-- Embeds Go `strings.TrimSpace` (see `isTrimSpaceByte`). -/
def trimSpace (l : List Nat) : List Nat :=
  ((l.dropWhile isTrimSpaceByte).reverse.dropWhile isTrimSpaceByte).reverse

/-- The shared shape of the read loops of Go `scanWhitespace`, `scanSign`
and `scanJoin`: consume a maximal run of runes satisfying `pred`, stepping
back one position on the first rune that does not match. -/
def scanRunLoop (pred : Nat → Bool) : Nat → List Nat → Scanner → List Nat × Scanner
  | 0, buf, s => (buf, s)
  | fuel + 1, buf, s =>
    let ch := (s.read).1
    let s1 := (s.read).2
    if ch == 0 then (buf, s1)
    else if !pred ch then (buf, s1.unread)
    else scanRunLoop pred fuel (buf ++ encodeRune ch) s1

/-- Embeds Go `(*Scanner).scanWhitespace`. -/
def Scanner.scanWhitespace (s : Scanner) : ScanResult :=
  let r := scanRunLoop isWhitespaceRune (s.data.length + 1 - s.pos) [] s
  ((.mk .whitespace r.1 [], none), r.2)

/-- Embeds Go `(*Scanner).scanSign`. -/
def Scanner.scanSign (s : Scanner) : ScanResult :=
  let r := scanRunLoop isSignStartRune (s.data.length + 1 - s.pos) [] s
  ((.mk .sign r.1 [],
    if !isSignOperator r.1 then some (.invalidSign r.1) else none), r.2)

/-- Embeds Go `(*Scanner).scanJoin`. -/
def Scanner.scanJoin (s : Scanner) : ScanResult :=
  let r := scanRunLoop isJoinStartRune (s.data.length + 1 - s.pos) [] s
  ((.mk .join r.1 [],
    if !isJoinOperator r.1 then some (.invalidJoin r.1) else none), r.2)

/-- The read loop of Go `(*Scanner).scanNumber`. -/
def scanNumberLoop : Nat → List Nat → Bool → Scanner → List Nat × Scanner
  | 0, buf, _, s => (buf, s)
  | fuel + 1, buf, hadDot, s =>
    let ch := (s.read).1
    let s1 := (s.read).2
    if ch == 0 then (buf, s1)
    else if !isDigitRune ch && (!(ch == 45) || !(buf.length == 0)) &&
        (!(ch == 46) || hadDot) then
      (buf, s1.unread)
    else scanNumberLoop fuel (buf ++ encodeRune ch) (hadDot || ch == 46) s1

/-- Embeds Go `(*Scanner).scanNumber`.  The Go code indexes `literal[0]`
and `literal[total-1]`; its callers guarantee a non-empty buffer (the first
rune is a number-start rune), so the empty case, on which Go would panic,
is mapped to an invalid-number error. -/
def Scanner.scanNumber (s : Scanner) : ScanResult :=
  let r := scanNumberLoop (s.data.length + 1 - s.pos) [] false s
  let err :=
    match r.1 with
    | [] => some (.invalidNumber [])
    | c :: rest =>
      if (rest == [] && c == 45) || c == 46 || (c :: rest).getLastD 0 == 46 then
        some (.invalidNumber (c :: rest))
      else none
  ((.mk .number r.1 [], err), r.2)

/-- The read loop of Go `(*Scanner).scanText`: accumulates runes until the
unescaped matching quote (returning `true`) or the end of the input
(returning `false`). -/
def scanTextLoop (firstCh : Nat) : Nat → List Nat → Nat → Scanner → (List Nat × Bool) × Scanner
  | 0, buf, _, s => ((buf, false), s)
  | fuel + 1, buf, prevCh, s =>
    let ch := (s.read).1
    let s1 := (s.read).2
    if ch == 0 then ((buf, false), s1)
    else
      let buf1 := buf ++ encodeRune ch
      if ch == firstCh && !(prevCh == 92) then ((buf1, true), s1)
      else scanTextLoop firstCh fuel buf1 ch s1

/-- Embeds Go `(*Scanner).scanText`. -/
def Scanner.scanText (s : Scanner) (preserveQuotes : Bool) : ScanResult :=
  let firstCh := (s.read).1
  let s1 := (s.read).2
  let r := scanTextLoop firstCh (s1.data.length + 1 - s1.pos) (encodeRune firstCh) 0 s1
  let buf := r.1.1
  if !r.1.2 then ((.mk .text buf [], some (.invalidText buf)), r.2)
  else if !preserveQuotes then
    ((.mk .text (replaceAll ((buf.drop 1).dropLast)
        ([92] ++ encodeRune firstCh) (encodeRune firstCh)) [], none), r.2)
  else ((.mk .text buf [], none), r.2)

/-- The read loop of Go `(*Scanner).scanComment`: accumulates runes up to a
newline or the end of the input (neither is stored, the newline is
consumed). -/
def scanCommentLoop : Nat → List Nat → Scanner → List Nat × Scanner
  | 0, buf, s => (buf, s)
  | fuel + 1, buf, s =>
    let ch := (s.read).1
    let s1 := (s.read).2
    if ch == 0 || ch == 10 then (buf, s1)
    else scanCommentLoop fuel (buf ++ encodeRune ch) s1

/-- Embeds Go `(*Scanner).scanComment`.  The two leading slashes are read
with short-circuiting, exactly as the Go condition
`!isCommentStartRune(s.read()) || !isCommentStartRune(s.read())`. -/
def Scanner.scanComment (s : Scanner) : ScanResult :=
  let c1 := (s.read).1
  let s1 := (s.read).2
  if !isCommentStartRune c1 then ((.mk .comment [] [], some .invalidComment), s1)
  else
    let c2 := (s1.read).1
    let s2 := (s1.read).2
    if !isCommentStartRune c2 then ((.mk .comment [] [], some .invalidComment), s2)
    else
      let r := scanCommentLoop (s2.data.length + 1 - s2.pos) [] s2
      ((.mk .comment (trimSpace r.1) [], none), r.2)

/-- The read loop of Go `(*Scanner).scanGroup`.  The result carries the
accumulated literal, the remaining open-group counter, and the error of a
failed nested text scan (which Go returns from `scanGroup` immediately). -/
def scanGroupLoop : Nat → List Nat → Nat → Scanner → (List Nat × Nat × Option ScanErr) × Scanner
  | 0, buf, openGroups, s => ((buf, openGroups, none), s)
  | fuel + 1, buf, openGroups, s =>
    let ch := (s.read).1
    let s1 := (s.read).2
    if ch == 0 then ((buf, openGroups, none), s1)
    else if isGroupStartRune ch then
      scanGroupLoop fuel (buf ++ encodeRune ch) (openGroups + 1) s1
    else if isTextStartRune ch then
      let r := Scanner.scanText s1.unread true
      match r.1.2 with
      | some e => ((buf ++ (r.1.1).literal, openGroups, some e), r.2)
      | none => scanGroupLoop fuel (buf ++ (r.1.1).literal) openGroups r.2
    else if ch == 41 then
      if openGroups - 1 == 0 then ((buf, openGroups - 1, none), s1)
      else scanGroupLoop fuel (buf ++ encodeRune ch) (openGroups - 1) s1
    else scanGroupLoop fuel (buf ++ encodeRune ch) openGroups s1

/-- Embeds Go `(*Scanner).scanGroup`.  `openGroups` is a Go `int` that the
loop never drives below zero (it breaks the first time the counter reaches
zero), so `Nat` is faithful. -/
def Scanner.scanGroup (s : Scanner) : ScanResult :=
  let firstChar := (s.read).1
  let s1 := (s.read).2
  let r := scanGroupLoop (s1.data.length + 1 - s1.pos) [] 1 s1
  let buf := r.1.1
  let openGroups := r.1.2.1
  match r.1.2.2 with
  | some e => ((.mk .group buf [], some e), r.2)
  | none =>
    ((.mk .group buf [],
      if !isGroupStartRune firstChar || !(openGroups == 0) then
        some (.missingBrackets openGroups)
      else none), r.2)

/-- Finishes the plain-identifier path of Go `(*Scanner).scanIdentifier`:
the validity check on the accumulated literal. -/
def finishIdentifier (buf : List Nat) (s : Scanner) : ScanResult :=
  ((.mk .identifier buf [],
    if !isValidIdentifier buf then some (.invalidIdentifier buf) else none), s)

/-- The read loop of Go `(*Scanner).scanIdentifier`.  `argsScan` is the
function-argument scanner for the current depth budget (`scanFunctionArgs`
at the same budget); it is consulted only when `funcDepth` is positive,
mirroring the Go guard `funcDepth <= 0`. -/
def scanIdentifierLoop (argsScan : List Nat → Scanner → ScanResult) (funcDepth : Nat) :
    Nat → List Nat → Scanner → ScanResult
  | 0, buf, s => finishIdentifier buf s
  | fuel + 1, buf, s =>
    let ch := (s.read).1
    let s1 := (s.read).2
    if ch == 0 then finishIdentifier buf s1
    else if ch == 40 then
      if funcDepth == 0 then
        ((.mk .function buf [], some (.maxFuncDepth s1.maxFuncDepth)), s1)
      else if !isValidIdentifier buf then
        ((.mk .function buf [], some (.invalidFuncName buf)), s1)
      else argsScan buf s1.unread
    else if !isLetterRune ch && !isDigitRune ch && !isIdentifierCombineRune ch &&
        !(ch == 95) then
      finishIdentifier buf s1.unread
    else scanIdentifierLoop argsScan funcDepth fuel (buf ++ encodeRune ch) s1

/-- The read loop of Go `(*Scanner).scanFunctionArgs`.  `identScan` is the
identifier scanner with the decremented depth budget
(`scanIdentifier(funcDepth - 1)` at the Go call site). -/
def scanFunctionArgsLoop (identScan : Scanner → ScanResult) (funcName : List Nat) :
    Nat → List Token → Bool → Scanner → ScanResult
  | 0, args, _, s => ((.mk .function funcName args, some (.funcMissingClose funcName)), s)
  | fuel + 1, args, expectComma, s =>
    let ch := (s.read).1
    let s1 := (s.read).2
    if ch == 0 then
      ((.mk .function funcName args, some (.funcMissingClose funcName)), s1)
    else if ch == 41 then ((.mk .function funcName args, none), s1)
    else if isWhitespaceRune ch then
      let r := s1.scanWhitespace
      match r.1.2 with
      | some e => ((.mk .function funcName args, some (.argWhitespaceErr funcName e)), r.2)
      | none => scanFunctionArgsLoop identScan funcName fuel args expectComma r.2
    else if isCommentStartRune ch then
      let r := s1.unread.scanComment
      match r.1.2 with
      | some e => ((.mk .function funcName args, some (.argCommentErr funcName e)), r.2)
      | none => scanFunctionArgsLoop identScan funcName fuel args expectComma r.2
    else if expectComma && !(ch == 44) then
      ((.mk .function funcName args, some (.expectedComma funcName)), s1)
    else if !expectComma && ch == 44 then
      ((.mk .function funcName args, some (.unexpectedComma funcName)), s1)
    else if ch == 44 then
      scanFunctionArgsLoop identScan funcName fuel args false s1
    else if isIdentifierStartRune ch then
      let r := identScan s1.unread
      match r.1.2 with
      | some e =>
        ((.mk .function funcName args,
          some (.argIdentErr (r.1.1).literal funcName e)), r.2)
      | none => scanFunctionArgsLoop identScan funcName fuel (args ++ [r.1.1]) true r.2
    else if isNumberStartRune ch then
      let r := s1.unread.scanNumber
      match r.1.2 with
      | some e =>
        ((.mk .function funcName args,
          some (.argNumberErr (r.1.1).literal funcName e)), r.2)
      | none => scanFunctionArgsLoop identScan funcName fuel (args ++ [r.1.1]) true r.2
    else if isTextStartRune ch then
      let r := s1.unread.scanText false
      match r.1.2 with
      | some e =>
        ((.mk .function funcName args,
          some (.argTextErr (r.1.1).literal funcName e)), r.2)
      | none => scanFunctionArgsLoop identScan funcName fuel (args ++ [r.1.1]) true r.2
    else ((.mk .function funcName args, some (.unsupportedArgChar ch funcName)), s1)

/-- Embeds Go `(*Scanner).scanFunctionArgs`. -/
def scanFunctionArgs (identScan : Scanner → ScanResult) (funcName : List Nat)
    (s : Scanner) : ScanResult :=
  let ch := (s.read).1
  let s1 := (s.read).2
  if !(ch == 40) then ((.mk .function funcName [], some (.funcMissingOpen funcName)), s1)
  else scanFunctionArgsLoop identScan funcName (s1.data.length + 1 - s1.pos) [] false s1

/-- Embeds Go `(*Scanner).scanIdentifier(funcDepth)`, stratified by the
depth budget.  At budget 0 the loop returns the max-depth error before
consulting its argument scanner, so the argument scanner supplied there is
that same error result. -/
def Scanner.scanIdentifier : Nat → Scanner → ScanResult
  | 0, s =>
    let ch := (s.read).1
    let s1 := (s.read).2
    scanIdentifierLoop
      (fun name s2 => ((.mk .function name [], some (.maxFuncDepth s2.maxFuncDepth)), s2))
      0 (s1.data.length + 1 - s1.pos) (encodeRune ch) s1
  | funcDepth + 1, s =>
    let ch := (s.read).1
    let s1 := (s.read).2
    scanIdentifierLoop
      (fun name s2 => scanFunctionArgs (Scanner.scanIdentifier funcDepth) name s2)
      (funcDepth + 1) (s1.data.length + 1 - s1.pos) (encodeRune ch) s1

/-- Embeds Go `(*Scanner).Scan`: first-rune dispatch to the sub-scanners. -/
def Scanner.scan (s : Scanner) : ScanResult :=
  let ch := (s.read).1
  let s1 := (s.read).2
  if ch == 0 then ((.mk .eof [] [], none), s1)
  else if isWhitespaceRune ch then s1.unread.scanWhitespace
  else if isGroupStartRune ch then s1.unread.scanGroup
  else if isIdentifierStartRune ch then Scanner.scanIdentifier s1.maxFuncDepth s1.unread
  else if isNumberStartRune ch then s1.unread.scanNumber
  else if isTextStartRune ch then s1.unread.scanText false
  else if isSignStartRune ch then s1.unread.scanSign
  else if isJoinStartRune ch then s1.unread.scanJoin
  else if isCommentStartRune ch then s1.unread.scanComment
  else ((.mk .unexpected (encodeRune ch) [], some (.unexpectedChar ch)), s1)

/-- The state relation every scanning function satisfies between its input
and output scanner: buffer and depth ceiling unchanged, position
non-decreasing, and position staying within the buffer when it started
there. -/
def SMono (s s' : Scanner) : Prop :=
  s'.data = s.data ∧ s'.maxFuncDepth = s.maxFuncDepth ∧ s.pos ≤ s'.pos ∧
    s'.pos ≤ max s.pos s.data.length

/-- The scanner state after `n` successive `Scan` calls. -/
def scanIter : Nat → Scanner → Scanner
  | 0, s => s
  | n + 1, s => scanIter n (s.scan).2

/-- Modelled from the spec: the join operator attached to a `JoinItem`
(`&&` or `||`); parser.go is not among the sources, so the parser side is
modelled from spec §3/§4.2. -/
inductive JoinKind where
  | and
  | or
  deriving DecidableEq, Repr

/-- Modelled from the spec (§3): one element of the AST — a comparison or a
nested parenthesized sequence, each carrying the join operator that
precedes it (the first item's join is fixed to `&&`). -/
inductive JoinItem where
  | cmp (join : JoinKind) (left : Token) (op : List Nat) (right : Token)
  | group (join : JoinKind) (items : List JoinItem)

/-- Modelled from the spec (§7): parser-level errors.  `fuelExhausted` is
an artifact of the fuel-indexed embedding of the parser's group recursion
and of tokenization; it corresponds to no spec error and is unreachable at
the fuel supplied by `Parse`. -/
inductive ParseErr where
  | scanError (e : ScanErr)
  | unexpectedToken (t : Token)
  | unexpectedEnd
  | fuelExhausted

/-- Modelled from the spec (§4.2): the parser's expectation states
(`ExpectOperand1 → ExpectOperator → ExpectOperand2 → ExpectJoinOrEnd`). -/
inductive PState where
  | operand1 (join : JoinKind)
  | sign (join : JoinKind) (left : Token)
  | operand2 (join : JoinKind) (left : Token) (op : List Nat)
  | joinOrEnd

/-- Modelled from the spec (§4.2): the token kinds accepted as comparison
operands. -/
def isOperandType (t : TokenType) : Bool :=
  t == .identifier || t == .number || t == .text || t == .function

/-- Modelled from the spec (§2, §4.2): the parser "repeatedly calls
scan()"; this loop materializes the token stream, stopping at the EOF token
or at the first scanner error (which the parser treats as fatal).  `none`
signals exhausted fuel; `tokenize` supplies fuel `length + 1`, which
suffices because every non-EOF `Scan` call consumes at least one byte. -/
def tokenizeLoop : Nat → Scanner → Option (List Token × Option ScanErr)
  | 0, _ => none
  | fuel + 1, s =>
    match s.scan with
    | ((_, some e), _) => some ([], some e)
    | ((t, none), s1) =>
      if t.type == .eof then some ([], none)
      else
        match tokenizeLoop fuel s1 with
        | none => none
        | some (ts, e) => some (t :: ts, e)

/-- Modelled from the spec: the token stream of an input. -/
def tokenize (input : List Nat) : Option (List Token × Option ScanErr) :=
  tokenizeLoop (input.length + 1) (NewScanner input)

/-- Modelled from the spec (§4.2): what the parser does when the token
stream ends — success if a `JoinItem` was just completed, otherwise the
fatal missing-operand/operator error (this also rejects the empty input). -/
def parseEnd (st : PState) (acc : List JoinItem) : List JoinItem × Option ParseErr :=
  match st with
  | .joinOrEnd => (acc, none)
  | _ => ([], some .unexpectedEnd)

/-- Modelled from the spec (§4.2): one step of the parser's state machine
on a token `t` from the stream; `next` continues parsing the remaining
tokens from a given state and accumulator.  Whitespace and comment tokens
are skipped at every decision point; a `Group` token in first-operand
position is re-parsed recursively via `recur` (the spec's recursive
`parse()` call on the group literal); on any error the whole parse yields
the empty AST. -/
def parseConsStep (recur : List Nat → List JoinItem × Option ParseErr)
    (next : PState → List JoinItem → List JoinItem × Option ParseErr)
    (t : Token) (st : PState) (acc : List JoinItem) :
    List JoinItem × Option ParseErr :=
  if t.type == .whitespace || t.type == .comment then next st acc
  else
    match st with
    | .operand1 j =>
      if t.type == .group then
        match recur t.literal with
        | (items, none) => next .joinOrEnd (acc ++ [.group j items])
        | (_, some e) => ([], some e)
      else if isOperandType t.type then next (.sign j t) acc
      else ([], some (.unexpectedToken t))
    | .sign j left =>
      if t.type == .sign then next (.operand2 j left t.literal) acc
      else ([], some (.unexpectedToken t))
    | .operand2 j left op =>
      if isOperandType t.type then next .joinOrEnd (acc ++ [.cmp j left op t])
      else ([], some (.unexpectedToken t))
    | .joinOrEnd =>
      if t.type == .join then
        next (.operand1 (if t.literal == [38, 38] then .and else .or)) acc
      else ([], some (.unexpectedToken t))

/-- Modelled from the spec (§4.2): the parser's expectation-state machine
over the token stream. -/
def parseTokens (recur : List Nat → List JoinItem × Option ParseErr) :
    List Token → PState → List JoinItem → List JoinItem × Option ParseErr
  | [], st, acc => parseEnd st acc
  | t :: rest, st, acc => parseConsStep recur (parseTokens recur rest) t st acc

/-- Modelled from the spec: `parse`, with fuel bounding the recursion into
group literals (each group literal is strictly shorter than its input, so
`input.length + 1` at top level is more than any nesting can consume). -/
def parseFuel : Nat → List Nat → List JoinItem × Option ParseErr
  | 0, _ => ([], some .fuelExhausted)
  | fuel + 1, input =>
    match tokenize input with
    | none => ([], some .fuelExhausted)
    | some (_, some e) => ([], some (.scanError e))
    | some (toks, none) => parseTokens (parseFuel fuel) toks (.operand1 .and) []

/-- Modelled from the spec: the public entry point
`parse(input) -> (FilterAST, Error?)`. -/
def Parse (input : List Nat) : List JoinItem × Option ParseErr :=
  parseFuel (input.length + 1) input

/-- Modelled from the spec: escaping a string for inclusion in quoted text
with quote character `q` — each occurrence of `q` gains a backslash prefix
(this is the inverse direction of the `strings.ReplaceAll` unquote step of
`scanText`; the repository itself ships no serializer). -/
def escapeQuote (q : Nat) : List Nat -> List Nat
  | [] => []
  | c :: t => if c == q then 92 :: c :: escapeQuote q t else c :: escapeQuote q t

/-- Modelled from the spec: the quoted escaped form of a string — the quote
character, the escaped body, the closing quote. -/
def quoteSerialize (q : Nat) (s : List Nat) : List Nat :=
  q :: (escapeQuote q s ++ [q])

theorem decodeRune_size_pos {l : List Nat} (h : l ≠ []) :
    1 ≤ (decodeRune l).2 := by
  rcases l with _ | ⟨b0, _ | ⟨b1, _ | ⟨b2, _ | ⟨b3, rest⟩⟩⟩⟩
  · exact absurd rfl h
  all_goals simp only [decodeRune]
  all_goals split_ifs <;> dsimp only <;> omega

theorem decodeRune_size_le (l : List Nat) : (decodeRune l).2 ≤ l.length := by
  rcases l with _ | ⟨b0, _ | ⟨b1, _ | ⟨b2, _ | ⟨b3, rest⟩⟩⟩⟩
  · simp [decodeRune]
  all_goals simp only [decodeRune, List.length_cons]
  all_goals split_ifs <;> dsimp only <;> omega

/-- An ASCII decode result comes from exactly the single leading byte. -/
theorem decodeRune_ascii {l : List Nat} (h : (decodeRune l).1 < 0x80) :
    (decodeRune l).2 = 1 ∧ l.head? = some (decodeRune l).1 := by
  rcases l with _ | ⟨b0, _ | ⟨b1, _ | ⟨b2, _ | ⟨b3, rest⟩⟩⟩⟩
  · exact absurd h (by decide)
  all_goals simp only [decodeRune] at h ⊢
  all_goals split_ifs at h ⊢ <;>
    first
      | exact ⟨rfl, rfl⟩
      | (exfalso; revert h; dsimp only; omega)

theorem SMono.refl {s : Scanner} : SMono s s :=
  ⟨Eq.refl _, Eq.refl _, le_refl _, le_max_left _ _⟩

theorem SMono.trans {s1 s2 s3 : Scanner} (h1 : SMono s1 s2) (h2 : SMono s2 s3) :
    SMono s1 s3 := by
  obtain ⟨hd1, hm1, hp1, hb1⟩ := h1
  obtain ⟨hd2, hm2, hp2, hb2⟩ := h2
  refine ⟨hd2.trans hd1, hm2.trans hm1, hp1.trans hp2, ?_⟩
  rw [hd1] at hb2
  omega

theorem read_of_eof {s : Scanner} (h : s.data.length ≤ s.pos) : s.read = (0, s) := by
  simp [Scanner.read, h]

theorem read_smono (s : Scanner) : SMono s (s.read).2 := by
  unfold Scanner.read
  split
  · exact SMono.refl
  · rename_i h
    have h2 := decodeRune_size_le (s.data.drop s.pos)
    simp only [List.length_drop] at h2
    exact ⟨rfl, rfl, by simp, by simp; omega⟩

theorem read_advances {s : Scanner} (h : s.pos < s.data.length) :
    s.pos < (s.read).2.pos := by
  unfold Scanner.read
  split
  · omega
  · have h1 : s.data.drop s.pos ≠ [] := by
      intro hc
      have := congrArg List.length hc
      simp at this
      omega
    have := decodeRune_size_pos h1
    simp
    omega

theorem read_ne_zero {s : Scanner} (h : (s.read).1 ≠ 0) :
    s.pos < s.data.length := by
  by_contra hc
  rw [read_of_eof (by omega)] at h
  exact h rfl

theorem unread_pos (s : Scanner) :
    s.unread = { s with pos := s.pos - 1 } := by
  unfold Scanner.unread
  split
  · rfl
  · rename_i h
    have : s.pos = 0 := by omega
    cases s
    simp_all

/-- For a read that returned a non-eof rune, reading then unreading is
monotone overall (the read advanced by at least one byte). -/
theorem read_unread_smono {s : Scanner} (h : (s.read).1 ≠ 0) :
    SMono s ((s.read).2.unread) := by
  have hlt := read_ne_zero h
  obtain ⟨hd, hm, hp, hb⟩ := read_smono s
  have ha := read_advances hlt
  have hmax : max s.pos s.data.length = s.data.length := max_eq_right (le_of_lt hlt)
  rw [hmax] at hb
  rw [unread_pos]
  refine ⟨hd, hm, ?_, ?_⟩
  · show s.pos ≤ (s.read).2.pos - 1
    omega
  · show (s.read).2.pos - 1 ≤ max s.pos s.data.length
    rw [hmax]
    omega

theorem scanRunLoop_smono (pred : Nat → Bool) (fuel : Nat) :
    ∀ buf s, SMono s (scanRunLoop pred fuel buf s).2 := by
  induction fuel with
  | zero => intro buf s; exact SMono.refl
  | succ fuel ih =>
    intro buf s
    simp only [scanRunLoop]
    split
    · exact read_smono s
    · split
      · rename_i h _
        simp at h
        exact read_unread_smono h
      · rename_i h _
        simp at h
        exact (read_smono s).trans (ih _ _)

theorem scanNumberLoop_smono (fuel : Nat) :
    ∀ buf hadDot s, SMono s (scanNumberLoop fuel buf hadDot s).2 := by
  induction fuel with
  | zero => intro buf hadDot s; exact SMono.refl
  | succ fuel ih =>
    intro buf hadDot s
    simp only [scanNumberLoop]
    split
    · exact read_smono s
    · split
      · rename_i h _
        simp at h
        exact read_unread_smono h
      · rename_i h _
        simp at h
        exact (read_smono s).trans (ih _ _ _)

theorem scanTextLoop_smono (firstCh fuel : Nat) :
    ∀ buf prevCh s, SMono s (scanTextLoop firstCh fuel buf prevCh s).2 := by
  induction fuel with
  | zero => intro buf prevCh s; exact SMono.refl
  | succ fuel ih =>
    intro buf prevCh s
    simp only [scanTextLoop]
    split
    · exact read_smono s
    · split
      · exact read_smono s
      · exact (read_smono s).trans (ih _ _ _)

theorem scanCommentLoop_smono (fuel : Nat) :
    ∀ buf s, SMono s (scanCommentLoop fuel buf s).2 := by
  induction fuel with
  | zero => intro buf s; exact SMono.refl
  | succ fuel ih =>
    intro buf s
    simp only [scanCommentLoop]
    split
    · exact read_smono s
    · exact (read_smono s).trans (ih _ _)

theorem scanText_smono (s : Scanner) (preserveQuotes : Bool) :
    SMono s (s.scanText preserveQuotes).2 := by
  have h := (read_smono s).trans
    (scanTextLoop_smono (s.read).1 ((s.read).2.data.length + 1 - (s.read).2.pos)
      (encodeRune (s.read).1) 0 (s.read).2)
  simp only [Scanner.scanText]
  split
  · exact h
  · split <;> exact h

theorem scanText_advances {s : Scanner} (h : s.pos < s.data.length)
    (preserveQuotes : Bool) : s.pos < (s.scanText preserveQuotes).2.pos := by
  have h1 := read_advances h
  obtain ⟨_, _, hp, _⟩ := scanTextLoop_smono ((s.read).1)
    ((s.read).2.data.length + 1 - (s.read).2.pos) (encodeRune (s.read).1) 0 (s.read).2
  simp only [Scanner.scanText]
  split
  · exact lt_of_lt_of_le h1 hp
  · split <;> exact lt_of_lt_of_le h1 hp

theorem scanGroupLoop_smono (fuel : Nat) :
    ∀ buf og s, SMono s (scanGroupLoop fuel buf og s).2 := by
  induction fuel with
  | zero => intro buf og s; exact SMono.refl
  | succ fuel ih =>
    intro buf og s
    simp only [scanGroupLoop]
    split
    · exact read_smono s
    · split
      · exact (read_smono s).trans (ih _ _ _)
      · split
        · rename_i h _ _
          simp at h
          have hru := read_unread_smono h
          have hs := scanText_smono ((s.read).2.unread) true
          split
          · exact hru.trans hs
          · exact (hru.trans hs).trans (ih _ _ _)
        · split
          · split
            · exact read_smono s
            · exact (read_smono s).trans (ih _ _ _)
          · exact (read_smono s).trans (ih _ _ _)

theorem scanWhitespace_smono (s : Scanner) : SMono s (s.scanWhitespace).2 :=
  scanRunLoop_smono _ _ _ _

theorem scanSign_smono (s : Scanner) : SMono s (s.scanSign).2 := by
  simp only [Scanner.scanSign]
  exact scanRunLoop_smono _ _ _ _

theorem scanJoin_smono (s : Scanner) : SMono s (s.scanJoin).2 := by
  simp only [Scanner.scanJoin]
  exact scanRunLoop_smono _ _ _ _

theorem scanNumber_smono (s : Scanner) : SMono s (s.scanNumber).2 :=
  scanNumberLoop_smono _ _ _ _

theorem scanComment_smono (s : Scanner) : SMono s (s.scanComment).2 := by
  simp only [Scanner.scanComment]
  split
  · exact read_smono s
  · split
    · exact (read_smono s).trans (read_smono _)
    · exact ((read_smono s).trans (read_smono _)).trans (scanCommentLoop_smono _ _ _)

theorem scanGroup_smono (s : Scanner) : SMono s (s.scanGroup).2 := by
  have h := (read_smono s).trans
    (scanGroupLoop_smono ((s.read).2.data.length + 1 - (s.read).2.pos) [] 1 (s.read).2)
  simp only [Scanner.scanGroup]
  split
  · exact h
  · exact h

theorem finishIdentifier_state (buf : List Nat) (s : Scanner) :
    (finishIdentifier buf s).2 = s := rfl

theorem scanIdentifierLoop_smono (argsScan : List Nat → Scanner → ScanResult)
    (hargs : ∀ name s, SMono s (argsScan name s).2) (funcDepth fuel : Nat) :
    ∀ buf s, SMono s (scanIdentifierLoop argsScan funcDepth fuel buf s).2 := by
  induction fuel with
  | zero => intro buf s; exact SMono.refl
  | succ fuel ih =>
    intro buf s
    simp only [scanIdentifierLoop]
    split
    · rw [finishIdentifier_state]
      exact read_smono s
    · split
      · split
        · exact read_smono s
        · split
          · exact read_smono s
          · rename_i h _ _ _
            simp at h
            exact (read_unread_smono (by simp [h])).trans (hargs _ _)
      · split
        · rename_i h _ _
          simp at h
          rw [finishIdentifier_state]
          exact read_unread_smono h
        · rename_i h _ _
          simp at h
          exact (read_smono s).trans (ih _ _)

theorem scanFunctionArgsLoop_smono (identScan : Scanner → ScanResult)
    (hident : ∀ s, SMono s (identScan s).2) (funcName : List Nat) (fuel : Nat) :
    ∀ args expectComma s, SMono s (scanFunctionArgsLoop identScan funcName fuel args expectComma s).2 := by
  induction fuel with
  | zero => intro args ec s; exact SMono.refl
  | succ fuel ih =>
    intro args ec s
    rw [scanFunctionArgsLoop.eq_2]
    by_cases h0 : ((s.read).1 == 0) = true
    · rw [if_pos h0]
      exact read_smono s
    rw [if_neg h0]
    simp only [beq_iff_eq] at h0
    by_cases h41 : ((s.read).1 == 41) = true
    · rw [if_pos h41]
      exact read_smono s
    rw [if_neg h41]
    by_cases hws : isWhitespaceRune (s.read).1 = true
    · rw [if_pos hws]
      dsimp only
      have hw := (read_smono s).trans (scanWhitespace_smono (s.read).2)
      cases hE : ((s.read).2.scanWhitespace).1.2 with
      | none => exact hw.trans (ih _ _ _)
      | some e => exact hw
    rw [if_neg hws]
    by_cases hcm : isCommentStartRune (s.read).1 = true
    · rw [if_pos hcm]
      dsimp only
      have hc := (read_unread_smono h0).trans (scanComment_smono ((s.read).2.unread))
      cases hE : ((s.read).2.unread.scanComment).1.2 with
      | none => exact hc.trans (ih _ _ _)
      | some e => exact hc
    rw [if_neg hcm]
    by_cases hec : (ec && !((s.read).1 == 44)) = true
    · rw [if_pos hec]
      exact read_smono s
    rw [if_neg hec]
    by_cases hnc : (!ec && (s.read).1 == 44) = true
    · rw [if_pos hnc]
      exact read_smono s
    rw [if_neg hnc]
    by_cases hcomma : ((s.read).1 == 44) = true
    · rw [if_pos hcomma]
      exact (read_smono s).trans (ih _ _ _)
    rw [if_neg hcomma]
    by_cases hid : isIdentifierStartRune (s.read).1 = true
    · rw [if_pos hid]
      dsimp only
      have hi := (read_unread_smono h0).trans (hident ((s.read).2.unread))
      cases hE : (identScan ((s.read).2.unread)).1.2 with
      | none => exact hi.trans (ih _ _ _)
      | some e => exact hi
    rw [if_neg hid]
    by_cases hnum : isNumberStartRune (s.read).1 = true
    · rw [if_pos hnum]
      dsimp only
      have hn := (read_unread_smono h0).trans (scanNumber_smono ((s.read).2.unread))
      cases hE : ((s.read).2.unread.scanNumber).1.2 with
      | none => exact hn.trans (ih _ _ _)
      | some e => exact hn
    rw [if_neg hnum]
    by_cases htxt : isTextStartRune (s.read).1 = true
    · rw [if_pos htxt]
      dsimp only
      have ht := (read_unread_smono h0).trans (scanText_smono ((s.read).2.unread) false)
      cases hE : ((s.read).2.unread.scanText false).1.2 with
      | none => exact ht.trans (ih _ _ _)
      | some e => exact ht
    rw [if_neg htxt]
    exact read_smono s

theorem scanFunctionArgs_smono (identScan : Scanner → ScanResult)
    (hident : ∀ s, SMono s (identScan s).2) (funcName : List Nat) (s : Scanner) :
    SMono s (scanFunctionArgs identScan funcName s).2 := by
  simp only [scanFunctionArgs]
  split
  · exact read_smono s
  · exact (read_smono s).trans (scanFunctionArgsLoop_smono _ hident _ _ _ _ _)

theorem scanIdentifier_smono (funcDepth : Nat) :
    ∀ s, SMono s (Scanner.scanIdentifier funcDepth s).2 := by
  induction funcDepth with
  | zero =>
    intro s
    simp only [Scanner.scanIdentifier]
    exact (read_smono s).trans
      (scanIdentifierLoop_smono _ (fun _ _ => SMono.refl) _ _ _ _)
  | succ funcDepth ih =>
    intro s
    simp only [Scanner.scanIdentifier]
    exact (read_smono s).trans
      (scanIdentifierLoop_smono _
        (fun name s' => scanFunctionArgs_smono _ ih name s') _ _ _ _)

theorem scan_smono (s : Scanner) : SMono s (s.scan).2 := by
  simp only [Scanner.scan]
  split
  · exact read_smono s
  rename_i hch
  simp only [beq_iff_eq] at hch
  split
  · exact (read_unread_smono hch).trans (scanWhitespace_smono _)
  split
  · exact (read_unread_smono hch).trans (scanGroup_smono _)
  split
  · exact (read_unread_smono hch).trans (scanIdentifier_smono _ _)
  split
  · exact (read_unread_smono hch).trans (scanNumber_smono _)
  split
  · exact (read_unread_smono hch).trans (scanText_smono _ _)
  split
  · exact (read_unread_smono hch).trans (scanSign_smono _)
  split
  · exact (read_unread_smono hch).trans (scanJoin_smono _)
  split
  · exact (read_unread_smono hch).trans (scanComment_smono _)
  · exact read_smono s

theorem scanRunLoop_advances (pred : Nat → Bool) (fuel : Nat) (buf : List Nat)
    (s : Scanner) (h0 : (s.read).1 ≠ 0) (hp : pred (s.read).1 = true) :
    s.pos < (scanRunLoop pred (fuel + 1) buf s).2.pos := by
  have ha := read_advances (read_ne_zero h0)
  obtain ⟨_, _, hmono, _⟩ :=
    scanRunLoop_smono pred fuel (buf ++ encodeRune (s.read).1) (s.read).2
  simp only [scanRunLoop]
  rw [if_neg (by simpa using h0), if_neg (by simp [hp])]
  omega

theorem scanWhitespace_advances {s : Scanner}
    (h : isWhitespaceRune (s.read).1 = true) : s.pos < (s.scanWhitespace).2.pos := by
  have h0 : (s.read).1 ≠ 0 := by
    intro hc; rw [hc] at h; exact absurd h (by decide)
  have hlt := read_ne_zero h0
  obtain ⟨k, hk⟩ : ∃ k, s.data.length + 1 - s.pos = k + 1 :=
    ⟨s.data.length - s.pos, by omega⟩
  simp only [Scanner.scanWhitespace]
  rw [hk]
  exact scanRunLoop_advances _ _ _ _ h0 h

theorem scanSign_advances {s : Scanner}
    (h : isSignStartRune (s.read).1 = true) : s.pos < (s.scanSign).2.pos := by
  have h0 : (s.read).1 ≠ 0 := by
    intro hc; rw [hc] at h; exact absurd h (by decide)
  have hlt := read_ne_zero h0
  obtain ⟨k, hk⟩ : ∃ k, s.data.length + 1 - s.pos = k + 1 :=
    ⟨s.data.length - s.pos, by omega⟩
  simp only [Scanner.scanSign]
  rw [hk]
  exact scanRunLoop_advances _ _ _ _ h0 h

theorem scanJoin_advances {s : Scanner}
    (h : isJoinStartRune (s.read).1 = true) : s.pos < (s.scanJoin).2.pos := by
  have h0 : (s.read).1 ≠ 0 := by
    intro hc; rw [hc] at h; exact absurd h (by decide)
  have hlt := read_ne_zero h0
  obtain ⟨k, hk⟩ : ∃ k, s.data.length + 1 - s.pos = k + 1 :=
    ⟨s.data.length - s.pos, by omega⟩
  simp only [Scanner.scanJoin]
  rw [hk]
  exact scanRunLoop_advances _ _ _ _ h0 h

theorem scanNumber_advances {s : Scanner}
    (h : isNumberStartRune (s.read).1 = true) : s.pos < (s.scanNumber).2.pos := by
  have h0 : (s.read).1 ≠ 0 := by
    intro hc; rw [hc] at h; exact absurd h (by decide)
  have hlt := read_ne_zero h0
  have ha := read_advances hlt
  obtain ⟨_, _, hmono, _⟩ := scanNumberLoop_smono (s.data.length - s.pos)
    ([] ++ encodeRune (s.read).1) (false || ((s.read).1 == 46)) (s.read).2
  obtain ⟨k, hk1, hk2⟩ : ∃ k, s.data.length + 1 - s.pos = k + 1 ∧ k = s.data.length - s.pos :=
    ⟨s.data.length - s.pos, by omega, rfl⟩
  simp only [Scanner.scanNumber]
  rw [hk1, hk2]
  simp only [scanNumberLoop]
  rw [if_neg (by simpa using h0)]
  rw [if_neg ?hcond]
  case hcond =>
    have hh : (s.read).1 = 45 ∨ isDigitRune (s.read).1 = true := by
      simpa [isNumberStartRune] using h
    rcases hh with h45 | hdig
    · simp [h45]
    · simp [hdig]
  exact lt_of_lt_of_le ha hmono

theorem scanComment_advances {s : Scanner} (h : s.pos < s.data.length) :
    s.pos < (s.scanComment).2.pos := by
  have ha := read_advances h
  obtain ⟨_, _, hm2, _⟩ := read_smono (s.read).2
  obtain ⟨_, _, hm3, _⟩ :=
    scanCommentLoop_smono ((((s.read).2.read).2.data.length + 1 - ((s.read).2.read).2.pos))
      [] (((s.read).2.read).2)
  simp only [Scanner.scanComment]
  split
  · exact ha
  · split
    · exact lt_of_lt_of_le ha hm2
    · exact lt_of_lt_of_le (lt_of_lt_of_le ha hm2) hm3

theorem scanGroup_advances {s : Scanner} (h : s.pos < s.data.length) :
    s.pos < (s.scanGroup).2.pos := by
  have ha := read_advances h
  obtain ⟨_, _, hm, _⟩ :=
    scanGroupLoop_smono ((s.read).2.data.length + 1 - (s.read).2.pos) [] 1 ((s.read).2)
  simp only [Scanner.scanGroup]
  split
  · exact lt_of_lt_of_le ha hm
  · exact lt_of_lt_of_le ha hm

theorem scanIdentifier_advances (funcDepth : Nat) {s : Scanner}
    (h : s.pos < s.data.length) :
    s.pos < (Scanner.scanIdentifier funcDepth s).2.pos := by
  have ha := read_advances h
  cases funcDepth with
  | zero =>
    obtain ⟨_, _, hm, _⟩ := scanIdentifierLoop_smono
      (fun name s2 => ((.mk .function name [], some (.maxFuncDepth s2.maxFuncDepth)), s2))
      (fun _ _ => SMono.refl) 0 ((s.read).2.data.length + 1 - (s.read).2.pos)
      (encodeRune (s.read).1) ((s.read).2)
    simp only [Scanner.scanIdentifier]
    exact lt_of_lt_of_le ha hm
  | succ d =>
    obtain ⟨_, _, hm, _⟩ := scanIdentifierLoop_smono
      (fun name s2 => scanFunctionArgs (Scanner.scanIdentifier d) name s2)
      (fun name s2 => scanFunctionArgs_smono _ (scanIdentifier_smono d) name s2)
      (d + 1) ((s.read).2.data.length + 1 - (s.read).2.pos)
      (encodeRune (s.read).1) ((s.read).2)
    simp only [Scanner.scanIdentifier]
    exact lt_of_lt_of_le ha hm

/-- When the rune just read is ASCII, it occupied one byte, so reading then
unreading restores the scanner exactly. -/
theorem read_ascii_unread {s : Scanner} (hlt : s.pos < s.data.length)
    (h : (s.read).1 < 0x80) : (s.read).2.unread = s := by
  have hne : ¬ s.data.length ≤ s.pos := by omega
  have h1 : (decodeRune (s.data.drop s.pos)).1 < 0x80 := by
    unfold Scanner.read at h
    rw [if_neg hne] at h
    exact h
  have hd := (decodeRune_ascii h1).1
  rw [unread_pos]
  unfold Scanner.read
  rw [if_neg hne]
  simp only [hd]
  cases s
  simp

theorem scan_advances {s : Scanner} (h : s.pos < s.data.length) :
    s.pos < (s.scan).2.pos := by
  simp only [Scanner.scan]
  split
  · exact read_advances h
  rename_i hch
  simp only [beq_iff_eq] at hch
  split
  · rename_i hp
    rw [read_ascii_unread h (by simp [isWhitespaceRune] at hp; omega)]
    exact scanWhitespace_advances hp
  split
  · rename_i hp
    rw [read_ascii_unread h (by simp [isGroupStartRune] at hp; omega)]
    exact scanGroup_advances h
  split
  · rename_i hp
    rw [read_ascii_unread h (by
      simp [isIdentifierStartRune, isLetterRune, isIdentifierSpecialStartRune] at hp
      omega)]
    exact scanIdentifier_advances _ h
  split
  · rename_i hp
    rw [read_ascii_unread h (by
      simp [isNumberStartRune, isDigitRune] at hp; omega)]
    exact scanNumber_advances hp
  split
  · rename_i hp
    rw [read_ascii_unread h (by simp [isTextStartRune] at hp; omega)]
    exact scanText_advances h false
  split
  · rename_i hp
    rw [read_ascii_unread h (by simp [isSignStartRune] at hp; omega)]
    exact scanSign_advances hp
  split
  · rename_i hp
    rw [read_ascii_unread h (by simp [isJoinStartRune] at hp; omega)]
    exact scanJoin_advances hp
  split
  · rename_i hp
    rw [read_ascii_unread h (by simp [isCommentStartRune] at hp; omega)]
    exact scanComment_advances h
  · exact read_advances h

theorem scan_at_eof {s : Scanner} (h : s.data.length ≤ s.pos) :
    s.scan = ((Token.mk .eof [] [], none), s) := by
  simp only [Scanner.scan, read_of_eof h]
  simp

theorem scanIter_reaches (k : Nat) : ∀ s : Scanner, s.pos ≤ s.data.length →
    s.data.length - s.pos ≤ k →
    s.data.length ≤ (scanIter k s).pos ∧ (scanIter k s).data = s.data := by
  induction k with
  | zero =>
    intro s h hk
    refine ⟨?_, rfl⟩
    simp only [scanIter]
    omega
  | succ k ih =>
    intro s h hk
    simp only [scanIter]
    by_cases hlt : s.pos < s.data.length
    · have ha := scan_advances hlt
      obtain ⟨hd, _, hp, hb⟩ := scan_smono s
      have hle : (s.scan).2.pos ≤ s.data.length := by
        rw [max_eq_right h] at hb; exact hb
      obtain ⟨h1, h2⟩ := ih (s.scan).2 (by rw [hd]; exact hle) (by rw [hd]; omega)
      rw [hd] at h1 h2
      exact ⟨h1, h2⟩
    · rw [congrArg Prod.snd (scan_at_eof (by omega))]
      exact ih s h (by omega)

/-- **C8**: for every scanner whose cursor is at end-of-input, `Scan`
returns an EOF token with no error and an unchanged scanner, and the state
is unchanged after arbitrarily many repeated calls. -/
theorem c8_eof_scan_stable (s : Scanner) (h : s.data.length ≤ s.pos) :
    s.scan = ((Token.mk .eof [] [], none), s) ∧ ∀ n, scanIter n s = s := by
  refine ⟨scan_at_eof h, ?_⟩
  intro n
  induction n with
  | zero => rfl
  | succ n ih =>
    simp only [scanIter]
    rw [congrArg Prod.snd (scan_at_eof h)]
    exact ih

theorem c8_eof_scan_stable_witness :
    (Scanner.mk [97] 1 3).data.length ≤ (Scanner.mk [97] 1 3).pos ∧
    ((Scanner.mk [97] 1 3).scan = ((Token.mk .eof [] [], none), Scanner.mk [97] 1 3) ∧
      ∀ n, scanIter n (Scanner.mk [97] 1 3) = Scanner.mk [97] 1 3) :=
  ⟨by decide, c8_eof_scan_stable _ (by decide)⟩

/-- **C9**: a `Scan` call that does not return an EOF token strictly
advances the cursor by at least one byte, the cursor never exceeds the
buffer length (nor, being a `Nat`, goes below zero), and iterated scanning
reaches an EOF answer after finitely many calls. -/
theorem c9_scan_progress (s : Scanner) (h : s.pos ≤ s.data.length) :
    (s.scan).2.data = s.data ∧
    (s.scan).2.pos ≤ s.data.length ∧
    ((s.scan).1.1.type ≠ .eof → s.pos < (s.scan).2.pos) ∧
    ((scanIter (s.data.length - s.pos) s).scan).1.1.type = .eof := by
  obtain ⟨hd, _, hp, hb⟩ := scan_smono s
  refine ⟨hd, by rw [max_eq_right h] at hb; exact hb, ?_, ?_⟩
  · intro hne
    by_cases hlt : s.pos < s.data.length
    · exact scan_advances hlt
    · exfalso
      apply hne
      rw [scan_at_eof (by omega)]
      rfl
  · obtain ⟨h1, h2⟩ := scanIter_reaches (s.data.length - s.pos) s h (le_refl _)
    rw [scan_at_eof (by rw [h2]; exact h1)]
    rfl

theorem c9_scan_progress_witness :
    (NewScanner [97]).pos ≤ (NewScanner [97]).data.length ∧
    (((NewScanner [97]).scan).2.data = (NewScanner [97]).data ∧
     ((NewScanner [97]).scan).2.pos ≤ (NewScanner [97]).data.length ∧
     (((NewScanner [97]).scan).1.1.type ≠ .eof →
       (NewScanner [97]).pos < ((NewScanner [97]).scan).2.pos) ∧
     ((scanIter ((NewScanner [97]).data.length - (NewScanner [97]).pos)
        (NewScanner [97])).scan).1.1.type = .eof) :=
  ⟨by decide, c9_scan_progress _ (by decide)⟩

/-- **C7** counterexample: after reading the two-byte code point "А"
(UTF-8 bytes 208, 144) from position 0, stepping back leaves the cursor at
byte 1 — inside the code point — not at the position 0 preceding it, so the
step-back operation does not rewind by one decoded code point. -/
theorem c7_counterexample :
    ((NewScanner [208, 144]).read).2.unread.pos = 1 ∧
      ¬ ((NewScanner [208, 144]).read).2.unread.pos = (NewScanner [208, 144]).pos := by
  constructor
  · rfl
  · decide

/-- **C7** (amended): the step-back operation rewinds the cursor by exactly
one byte, so after reading a code point whose encoding is `n` bytes wide it
lands `n - 1` bytes past the position preceding the code point (and returns
to that position exactly when the code point is single-byte). -/
theorem c7_unread_one_byte (s : Scanner) (h : s.pos < s.data.length) :
    ((s.read).2.unread).pos = s.pos + (decodeRune (s.data.drop s.pos)).2 - 1 := by
  rw [unread_pos]
  unfold Scanner.read
  rw [if_neg (by omega)]

theorem c7_unread_one_byte_witness :
    (NewScanner [208, 144]).pos < (NewScanner [208, 144]).data.length ∧
    ((NewScanner [208, 144]).read).2.unread.pos =
      (NewScanner [208, 144]).pos +
        (decodeRune ((NewScanner [208, 144]).data.drop (NewScanner [208, 144]).pos)).2 - 1 :=
  ⟨by decide, c7_unread_one_byte _ (by decide)⟩

theorem operandType_not_skip {tt : TokenType} (h : isOperandType tt = true) :
    (tt == TokenType.whitespace || tt == TokenType.comment) = false ∧
      (tt == TokenType.group) = false := by
  cases tt <;> simp_all [isOperandType]

theorem parseConsStep_congr (recur : List Nat → List JoinItem × Option ParseErr)
    (next1 next2 : PState → List JoinItem → List JoinItem × Option ParseErr)
    (h : ∀ st acc, next1 st acc = next2 st acc) (t : Token) (st : PState)
    (acc : List JoinItem) :
    parseConsStep recur next1 t st acc = parseConsStep recur next2 t st acc := by
  simp only [parseConsStep]
  split
  · exact h _ _
  cases st with
  | operand1 j =>
    dsimp only
    by_cases hg : (t.type == TokenType.group) = true
    · rw [if_pos hg, if_pos hg]
      rcases hrec : recur t.literal with ⟨items, _ | e⟩
      · exact h _ _
      · rfl
    · rw [if_neg hg, if_neg hg]
      by_cases hop : isOperandType t.type = true
      · rw [if_pos hop, if_pos hop]
        exact h _ _
      · rw [if_neg hop, if_neg hop]
  | sign j left =>
    dsimp only
    split
    · exact h _ _
    · rfl
  | operand2 j left op =>
    dsimp only
    split
    · exact h _ _
    · rfl
  | joinOrEnd =>
    dsimp only
    split
    · exact h _ _
    · rfl

/-- Skipping whitespace and comments at every decision point is the same as
filtering them out of the token stream up front. -/
theorem parseTokens_filter (recur : List Nat → List JoinItem × Option ParseErr)
    (toks : List Token) : ∀ st acc,
    parseTokens recur toks st acc =
      parseTokens recur
        (toks.filter fun t => !(t.type == TokenType.whitespace || t.type == TokenType.comment))
        st acc := by
  induction toks with
  | nil => intro st acc; rfl
  | cons t rest ih =>
    intro st acc
    by_cases h : (t.type == TokenType.whitespace || t.type == TokenType.comment) = true
    · have hf : ((t :: rest).filter fun t =>
            !(t.type == TokenType.whitespace || t.type == TokenType.comment)) =
          (rest.filter fun t =>
            !(t.type == TokenType.whitespace || t.type == TokenType.comment)) := by
        rw [List.filter_cons, h]
        simp
      rw [parseTokens.eq_2]
      rw [show parseConsStep recur (parseTokens recur rest) t st acc =
          parseTokens recur rest st acc by
        simp only [parseConsStep]
        rw [if_pos h]]
      rw [ih st acc, hf]
    · have hf : ((t :: rest).filter fun t =>
            !(t.type == TokenType.whitespace || t.type == TokenType.comment)) =
          t :: (rest.filter fun t =>
            !(t.type == TokenType.whitespace || t.type == TokenType.comment)) := by
        rw [List.filter_cons, show (t.type == TokenType.whitespace ||
            t.type == TokenType.comment) = false by
          revert h
          cases (t.type == TokenType.whitespace || t.type == TokenType.comment) <;> simp]
        simp
      rw [hf, parseTokens.eq_2, parseTokens.eq_2]
      exact parseConsStep_congr recur _ _ (fun st acc => ih st acc) t st acc

theorem parseConsStep_error_empty (recur : List Nat → List JoinItem × Option ParseErr)
    (next : PState → List JoinItem → List JoinItem × Option ParseErr)
    (hnext : ∀ st acc, (next st acc).2.isSome = true → (next st acc).1 = [])
    (t : Token) (st : PState) (acc : List JoinItem) :
    (parseConsStep recur next t st acc).2.isSome = true →
      (parseConsStep recur next t st acc).1 = [] := by
  simp only [parseConsStep]
  split
  · exact hnext _ _
  cases st with
  | operand1 j =>
    dsimp only
    by_cases hg : (t.type == TokenType.group) = true
    · rw [if_pos hg]
      rcases hrec : recur t.literal with ⟨items, _ | e⟩
      · exact hnext _ _
      · intro _; rfl
    · rw [if_neg hg]
      by_cases hop : isOperandType t.type = true
      · rw [if_pos hop]
        exact hnext _ _
      · rw [if_neg hop]
        intro _; rfl
  | sign j left =>
    dsimp only
    split
    · exact hnext _ _
    · intro _; rfl
  | operand2 j left op =>
    dsimp only
    split
    · exact hnext _ _
    · intro _; rfl
  | joinOrEnd =>
    dsimp only
    split
    · exact hnext _ _
    · intro _; rfl

theorem parseTokens_error_empty (recur : List Nat → List JoinItem × Option ParseErr)
    (toks : List Token) : ∀ st acc,
    (parseTokens recur toks st acc).2.isSome = true → (parseTokens recur toks st acc).1 = [] := by
  induction toks with
  | nil =>
    intro st acc
    cases st <;> simp [parseTokens, parseEnd]
  | cons t rest ih =>
    intro st acc
    rw [parseTokens.eq_2]
    exact parseConsStep_error_empty recur _ ih t st acc

theorem parseFuel_error_empty (fuel : Nat) : ∀ input,
    (parseFuel fuel input).2.isSome = true → (parseFuel fuel input).1 = [] := by
  cases fuel with
  | zero => intro input _; rfl
  | succ fuel =>
    intro input
    rw [parseFuel.eq_2]
    rcases htok : tokenize input with _ | ⟨toks, _ | e⟩
    · intro _; rfl
    · exact parseTokens_error_empty _ _ _ _
    · intro _; rfl

/-- **C2**: for every input string, whenever `Parse` returns an error it
returns an empty AST sequence — no partial AST is surfaced alongside a
parse error, including errors originating from scanner-level token
errors. -/
theorem c2_parse_error_empty (input : List Nat) (h : (Parse input).2.isSome = true) :
    (Parse input).1 = [] :=
  parseFuel_error_empty _ input h

theorem c2_parse_error_empty_witness :
    (Parse [62, 32, 49]).2.isSome = true ∧ (Parse [62, 32, 49]).1 = [] :=
  ⟨by decide, c2_parse_error_empty _ (by decide)⟩

/-- **C1**: for a well-formed single comparison input — one whose token
stream is operand `X`, a sign operator, operand `Y`, up to whitespace and
comments — `Parse` returns a one-element AST whose single item carries the
join `&&` and the comparison with left `X`, the sign's literal as operator,
and right `Y`. -/
theorem c1_single_comparison (input : List Nat) (tX tS tY : Token) (toks : List Token)
    (htok : tokenize input = some (toks, none))
    (hfil : (toks.filter fun t =>
        !(t.type == TokenType.whitespace || t.type == TokenType.comment)) = [tX, tS, tY])
    (hX : isOperandType tX.type = true)
    (hS : tS.type = TokenType.sign)
    (hSop : isSignOperator tS.literal = true)
    (hY : isOperandType tY.type = true) :
    Parse input = ([JoinItem.cmp .and tX tS.literal tY], none) := by
  obtain ⟨hX1, hX2⟩ := operandType_not_skip hX
  obtain ⟨hY1, hY2⟩ := operandType_not_skip hY
  have hS1 : (tS.type == TokenType.whitespace || tS.type == TokenType.comment) = false := by
    rw [hS]; rfl
  show parseFuel (input.length + 1) input = _
  rw [parseFuel.eq_2, htok]
  show parseTokens (parseFuel input.length) toks (.operand1 .and) [] = _
  rw [parseTokens_filter, hfil, parseTokens.eq_2]
  rw [show parseConsStep (parseFuel input.length)
      (parseTokens (parseFuel input.length) [tS, tY]) tX (.operand1 .and) [] =
      parseTokens (parseFuel input.length) [tS, tY] (.sign .and tX) [] by
    simp only [parseConsStep, hX1, hX2, hX]
    simp]
  rw [parseTokens.eq_2]
  rw [show parseConsStep (parseFuel input.length)
      (parseTokens (parseFuel input.length) [tY]) tS (.sign .and tX) [] =
      parseTokens (parseFuel input.length) [tY] (.operand2 .and tX tS.literal) [] by
    simp only [parseConsStep, hS1, hS]
    simp]
  rw [parseTokens.eq_2]
  rw [show parseConsStep (parseFuel input.length)
      (parseTokens (parseFuel input.length) []) tY (.operand2 .and tX tS.literal) [] =
      parseTokens (parseFuel input.length) [] .joinOrEnd
        ([] ++ [JoinItem.cmp .and tX tS.literal tY]) by
    simp only [parseConsStep, hY1, hY]
    simp]
  rfl

theorem c1_single_comparison_witness :
    tokenize [49, 61, 49, 50] =
      some ([Token.mk .number [49] [], Token.mk .sign [61] [], Token.mk .number [49, 50] []],
        none) ∧
    Parse [49, 61, 49, 50] =
      ([JoinItem.cmp .and (Token.mk .number [49] []) [61] (Token.mk .number [49, 50] [])],
        none) :=
  ⟨rfl, c1_single_comparison [49, 61, 49, 50] _ _ _ _ rfl rfl rfl rfl rfl rfl⟩

/-- **C5**: with the default function-nesting ceiling 3, scanning
`a(b(c(1)))` succeeds with the fully nested function token, while scanning
`a(b(c(d(1))))` fails — the innermost error is the max-depth error raised
at the 4th nesting level — and returns a `Function` token with no arguments
collected. -/
theorem c5_func_depth_ceiling :
    ((NewScanner [97, 40, 98, 40, 99, 40, 49, 41, 41, 41]).scan).1 =
      (Token.mk .function [97] [Token.mk .function [98]
        [Token.mk .function [99] [Token.mk .number [49] []]]], none) ∧
    ((NewScanner [97, 40, 98, 40, 99, 40, 100, 40, 49, 41, 41, 41, 41]).scan).1 =
      (Token.mk .function [97] [],
        some (.argIdentErr [98] [97] (.argIdentErr [99] [98]
          (.argIdentErr [100] [99] (.maxFuncDepth 3))))) :=
  ⟨rfl, rfl⟩

/-- **C10**: scanning the input `()` yields a Group token with an empty
literal and no error; the empty group is rejected only later, by the
parser, which fails on `()` with an empty AST. -/
theorem c10_empty_group_scan :
    ((NewScanner [40, 41]).scan).1 = (Token.mk .group [] [], none) ∧
    (Parse [40, 41]).1 = [] ∧ (Parse [40, 41]).2.isSome = true :=
  ⟨rfl, rfl, rfl⟩

theorem encodeRune_ascii {c : Nat} (h : c < 0x80) : encodeRune c = [c] := by
  simp [encodeRune, h]

theorem scanWhitespace_type (s : Scanner) :
    ((s.scanWhitespace).1.1).type = .whitespace := rfl

theorem scanSign_type (s : Scanner) : ((s.scanSign).1.1).type = .sign := rfl

theorem scanJoin_type (s : Scanner) : ((s.scanJoin).1.1).type = .join := rfl

theorem scanNumber_type (s : Scanner) : ((s.scanNumber).1.1).type = .number := rfl

theorem scanText_type (s : Scanner) (preserveQuotes : Bool) :
    ((s.scanText preserveQuotes).1.1).type = .text := by
  simp only [Scanner.scanText]
  split
  · rfl
  · split <;> rfl

theorem scanComment_type (s : Scanner) : ((s.scanComment).1.1).type = .comment := by
  simp only [Scanner.scanComment]
  split
  · rfl
  · split <;> rfl

theorem scanGroup_type (s : Scanner) : ((s.scanGroup).1.1).type = .group := by
  simp only [Scanner.scanGroup]
  split <;> rfl

theorem scanFunctionArgsLoop_type (identScan : Scanner → ScanResult)
    (funcName : List Nat) (fuel : Nat) : ∀ args expectComma s,
    ((scanFunctionArgsLoop identScan funcName fuel args expectComma s).1.1).type = .function := by
  induction fuel with
  | zero => intro args ec s; rfl
  | succ fuel ih =>
    intro args ec s
    rw [scanFunctionArgsLoop.eq_2]
    by_cases h0 : ((s.read).1 == 0) = true
    · rw [if_pos h0]; rfl
    rw [if_neg h0]
    by_cases h41 : ((s.read).1 == 41) = true
    · rw [if_pos h41]; rfl
    rw [if_neg h41]
    by_cases hws : isWhitespaceRune (s.read).1 = true
    · rw [if_pos hws]
      dsimp only
      cases hE : ((s.read).2.scanWhitespace).1.2 with
      | none => exact ih _ _ _
      | some e => rfl
    rw [if_neg hws]
    by_cases hcm : isCommentStartRune (s.read).1 = true
    · rw [if_pos hcm]
      dsimp only
      cases hE : ((s.read).2.unread.scanComment).1.2 with
      | none => exact ih _ _ _
      | some e => rfl
    rw [if_neg hcm]
    by_cases hec : (ec && !((s.read).1 == 44)) = true
    · rw [if_pos hec]; rfl
    rw [if_neg hec]
    by_cases hnc : (!ec && (s.read).1 == 44) = true
    · rw [if_pos hnc]; rfl
    rw [if_neg hnc]
    by_cases hcomma : ((s.read).1 == 44) = true
    · rw [if_pos hcomma]
      exact ih _ _ _
    rw [if_neg hcomma]
    by_cases hid : isIdentifierStartRune (s.read).1 = true
    · rw [if_pos hid]
      dsimp only
      cases hE : (identScan ((s.read).2.unread)).1.2 with
      | none => exact ih _ _ _
      | some e => rfl
    rw [if_neg hid]
    by_cases hnum : isNumberStartRune (s.read).1 = true
    · rw [if_pos hnum]
      dsimp only
      cases hE : ((s.read).2.unread.scanNumber).1.2 with
      | none => exact ih _ _ _
      | some e => rfl
    rw [if_neg hnum]
    by_cases htxt : isTextStartRune (s.read).1 = true
    · rw [if_pos htxt]
      dsimp only
      cases hE : ((s.read).2.unread.scanText false).1.2 with
      | none => exact ih _ _ _
      | some e => rfl
    rw [if_neg htxt]
    rfl

theorem scanFunctionArgs_type (identScan : Scanner → ScanResult)
    (funcName : List Nat) (s : Scanner) :
    ((scanFunctionArgs identScan funcName s).1.1).type = .function := by
  simp only [scanFunctionArgs]
  split
  · rfl
  · exact scanFunctionArgsLoop_type _ _ _ _ _ _

theorem finishIdentifier_shape (buf : List Nat) (s : Scanner) :
    (finishIdentifier buf s).1.1 = Token.mk .identifier buf [] ∧
    ((finishIdentifier buf s).1.2.isSome = true ↔ ¬ isValidIdentifier buf = true) := by
  refine ⟨rfl, ?_⟩
  simp only [finishIdentifier]
  by_cases hv : isValidIdentifier buf = true
  · rw [if_neg (by simp [hv])]
    simp [hv]
  · rw [if_pos (by simp_all)]
    simp [hv]

theorem identTail_lt {ch : Nat}
    (h : (isLetterRune ch || isDigitRune ch || isIdentifierCombineRune ch ||
      ch == 95) = true) : ch < 0x80 := by
  simp [isLetterRune, isDigitRune, isIdentifierCombineRune] at h
  omega

/-- Every `Identifier`-typed outcome of the identifier loop extends the
buffer only with tail runes (letters, digits, `.`, `:` or `_`), and errs
exactly when the final literal fails `isValidIdentifier`. -/
theorem scanIdentifierLoop_ident_shape (argsScan : List Nat → Scanner → ScanResult)
    (hargs : ∀ name s', ((argsScan name s').1.1).type ≠ .identifier)
    (funcDepth fuel : Nat) : ∀ buf s,
    ((scanIdentifierLoop argsScan funcDepth fuel buf s).1.1).type = .identifier →
    ∃ ext, (scanIdentifierLoop argsScan funcDepth fuel buf s).1.1 =
      Token.mk .identifier (buf ++ ext) [] ∧
      (∀ c ∈ ext, (isLetterRune c || isDigitRune c || isIdentifierCombineRune c ||
        c == 95) = true) ∧
      ((scanIdentifierLoop argsScan funcDepth fuel buf s).1.2.isSome = true ↔
        ¬ isValidIdentifier (buf ++ ext) = true) := by
  induction fuel with
  | zero =>
    intro buf s _
    refine ⟨[], ?_, by simp, ?_⟩
    · rw [List.append_nil]
      exact (finishIdentifier_shape buf s).1
    · rw [List.append_nil]
      exact (finishIdentifier_shape buf s).2
  | succ fuel ih =>
    intro buf s h
    rw [scanIdentifierLoop.eq_2] at h ⊢
    by_cases h0 : ((s.read).1 == 0) = true
    · rw [if_pos h0] at h ⊢
      refine ⟨[], ?_, by simp, ?_⟩
      · rw [List.append_nil]
        exact (finishIdentifier_shape buf _).1
      · rw [List.append_nil]
        exact (finishIdentifier_shape buf _).2
    rw [if_neg h0] at h ⊢
    by_cases h40 : ((s.read).1 == 40) = true
    · rw [if_pos h40] at h ⊢
      by_cases hd : (funcDepth == 0) = true
      · rw [if_pos hd] at h
        simp [Token.type] at h
      · rw [if_neg hd] at h ⊢
        by_cases hv : (!isValidIdentifier buf) = true
        · rw [if_pos hv] at h
          simp [Token.type] at h
        · rw [if_neg hv] at h
          exact absurd h (hargs _ _)
    rw [if_neg h40] at h ⊢
    by_cases hbrk : (!isLetterRune (s.read).1 && !isDigitRune (s.read).1 &&
        !isIdentifierCombineRune (s.read).1 && !((s.read).1 == 95)) = true
    · rw [if_pos hbrk] at h ⊢
      refine ⟨[], ?_, by simp, ?_⟩
      · rw [List.append_nil]
        exact (finishIdentifier_shape buf _).1
      · rw [List.append_nil]
        exact (finishIdentifier_shape buf _).2
    · rw [if_neg hbrk] at h ⊢
      have hch : (isLetterRune (s.read).1 || isDigitRune (s.read).1 ||
          isIdentifierCombineRune (s.read).1 || (s.read).1 == 95) = true := by
        revert hbrk
        cases isLetterRune (s.read).1 <;> cases isDigitRune (s.read).1 <;>
          cases isIdentifierCombineRune (s.read).1 <;> cases ((s.read).1 == 95) <;> simp
      have henc : encodeRune (s.read).1 = [(s.read).1] := encodeRune_ascii (identTail_lt hch)
      obtain ⟨ext, hlit, htail, herr⟩ := ih (buf ++ encodeRune (s.read).1) (s.read).2 h
      refine ⟨(s.read).1 :: ext, ?_, ?_, ?_⟩
      · rw [hlit, henc]
        simp
      · intro c hc
        rcases List.mem_cons.mp hc with hc | hc
        · rw [hc]; exact hch
        · exact htail c hc
      · rw [herr, henc]
        simp

theorem scanIdentifier_ident_shape (funcDepth : Nat) (s : Scanner)
    (hstart : isIdentifierStartRune (s.read).1 = true)
    (h : ((Scanner.scanIdentifier funcDepth s).1.1).type = .identifier) :
    ∃ ext, (Scanner.scanIdentifier funcDepth s).1.1 =
      Token.mk .identifier ((s.read).1 :: ext) [] ∧
      (∀ c ∈ ext, (isLetterRune c || isDigitRune c || isIdentifierCombineRune c ||
        c == 95) = true) ∧
      ((Scanner.scanIdentifier funcDepth s).1.2.isSome = true ↔
        ¬ isValidIdentifier ((s.read).1 :: ext) = true) := by
  have hlt : (s.read).1 < 0x80 := by
    simp [isIdentifierStartRune, isLetterRune, isIdentifierSpecialStartRune] at hstart
    omega
  have henc : encodeRune (s.read).1 = [(s.read).1] := encodeRune_ascii hlt
  cases funcDepth with
  | zero =>
    simp only [Scanner.scanIdentifier] at h ⊢
    rw [henc] at h ⊢
    obtain ⟨ext, hlit, htail, herr⟩ := scanIdentifierLoop_ident_shape _
      (fun _ _ => by simp [Token.type]) 0 _ [(s.read).1] (s.read).2 h
    exact ⟨ext, hlit, htail, herr⟩
  | succ d =>
    simp only [Scanner.scanIdentifier] at h ⊢
    rw [henc] at h ⊢
    obtain ⟨ext, hlit, htail, herr⟩ := scanIdentifierLoop_ident_shape _
      (fun name s' => by
        rw [scanFunctionArgs_type (Scanner.scanIdentifier d) name s']
        simp) (d + 1) _ [(s.read).1] (s.read).2 h
    exact ⟨ext, hlit, htail, herr⟩

theorem isValidIdentifier_not_iff (c : Nat) (rest : List Nat) :
    (¬ isValidIdentifier (c :: rest) = true) ↔
      (isIdentifierCombineRune ((c :: rest).getLastD 0) = true ∨
        (rest = [] ∧ isIdentifierSpecialStartRune c = true)) := by
  simp only [isValidIdentifier]
  cases rest with
  | nil =>
    cases hcl : isIdentifierCombineRune ([c].getLastD 0) <;>
      cases hsp : isIdentifierSpecialStartRune c <;> simp_all
  | cons b bs =>
    cases hcl : isIdentifierCombineRune ((c :: b :: bs).getLastD 0) <;>
      cases hsp : isIdentifierSpecialStartRune c <;> simp_all

/-- **C6** counterexample: scanning `a_b` produces an error-free Identifier
token whose literal is `a_b`, whose second character `_` (byte 95) is
neither a letter nor a digit nor `.` nor `:` — refuting the claim that
every subsequent character of an identifier literal is one of those. -/
theorem c6_counterexample :
    ((NewScanner [97, 95, 98]).scan).1.1.type = .identifier ∧
    ((NewScanner [97, 95, 98]).scan).1.1.literal = [97, 95, 98] ∧
    ((NewScanner [97, 95, 98]).scan).1.2 = none ∧
    ¬ (isLetterRune 95 || isDigitRune 95 || (95 : Nat) == 46 ||
        (95 : Nat) == 58) = true := by
  refine ⟨rfl, rfl, rfl, by decide⟩

/-- **C6** (amended): every Identifier token produced by `Scan` has a
literal that starts with a letter or one of `@`/`_`/`#` and continues with
letters, digits, `.`, `:` or `_` (the underscore is also accepted as a
subsequent character, which the original claim omitted); the scan errors
exactly when the literal ends with `.`/`:` or is a single bare
special-start character. -/
theorem c6_identifier_token_shape (s : Scanner)
    (h : ((s.scan).1.1).type = .identifier) :
    ∃ c0 ext, (s.scan).1.1 = Token.mk .identifier (c0 :: ext) [] ∧
      isIdentifierStartRune c0 = true ∧
      (∀ c ∈ ext, (isLetterRune c || isDigitRune c || isIdentifierCombineRune c ||
        c == 95) = true) ∧
      ((s.scan).1.2.isSome = true ↔
        (isIdentifierCombineRune ((c0 :: ext).getLastD 0) = true ∨
          (ext = [] ∧ isIdentifierSpecialStartRune c0 = true))) := by
  simp only [Scanner.scan] at h ⊢
  by_cases h0 : ((s.read).1 == 0) = true
  · rw [if_pos h0] at h
    simp [Token.type] at h
  rw [if_neg h0] at h ⊢
  by_cases hws : isWhitespaceRune (s.read).1 = true
  · rw [if_pos hws] at h
    rw [scanWhitespace_type] at h
    simp at h
  rw [if_neg hws] at h ⊢
  by_cases hgr : isGroupStartRune (s.read).1 = true
  · rw [if_pos hgr] at h
    rw [scanGroup_type] at h
    simp at h
  rw [if_neg hgr] at h ⊢
  by_cases hid : isIdentifierStartRune (s.read).1 = true
  · rw [if_pos hid] at h ⊢
    have hne : (s.read).1 ≠ 0 := by simpa using h0
    have hlt := read_ne_zero hne
    have hASCII : (s.read).1 < 0x80 := by
      simp [isIdentifierStartRune, isLetterRune, isIdentifierSpecialStartRune] at hid
      omega
    rw [read_ascii_unread hlt hASCII] at h ⊢
    obtain ⟨ext, hlit, htail, herr⟩ := scanIdentifier_ident_shape _ s hid h
    refine ⟨(s.read).1, ext, hlit, hid, htail, ?_⟩
    rw [herr]
    exact isValidIdentifier_not_iff _ _
  rw [if_neg hid] at h ⊢
  by_cases hnum : isNumberStartRune (s.read).1 = true
  · rw [if_pos hnum] at h
    rw [scanNumber_type] at h
    simp at h
  rw [if_neg hnum] at h ⊢
  by_cases htxt : isTextStartRune (s.read).1 = true
  · rw [if_pos htxt] at h
    rw [scanText_type] at h
    simp at h
  rw [if_neg htxt] at h ⊢
  by_cases hsg : isSignStartRune (s.read).1 = true
  · rw [if_pos hsg] at h
    rw [scanSign_type] at h
    simp at h
  rw [if_neg hsg] at h ⊢
  by_cases hjn : isJoinStartRune (s.read).1 = true
  · rw [if_pos hjn] at h
    rw [scanJoin_type] at h
    simp at h
  rw [if_neg hjn] at h ⊢
  by_cases hcm : isCommentStartRune (s.read).1 = true
  · rw [if_pos hcm] at h
    rw [scanComment_type] at h
    simp at h
  rw [if_neg hcm] at h ⊢
  simp [Token.type] at h

theorem c6_identifier_token_shape_witness :
    ((NewScanner [97, 95, 98]).scan).1.1.type = .identifier ∧
    (∃ c0 ext, ((NewScanner [97, 95, 98]).scan).1.1 = Token.mk .identifier (c0 :: ext) [] ∧
      isIdentifierStartRune c0 = true ∧
      (∀ c ∈ ext, (isLetterRune c || isDigitRune c || isIdentifierCombineRune c ||
        c == 95) = true) ∧
      (((NewScanner [97, 95, 98]).scan).1.2.isSome = true ↔
        (isIdentifierCombineRune ((c0 :: ext).getLastD 0) = true ∨
          (ext = [] ∧ isIdentifierSpecialStartRune c0 = true)))) :=
  ⟨rfl, c6_identifier_token_shape _ rfl⟩

theorem read_lt {s : Scanner} (h : s.pos < s.data.length) :
    s.read = ((decodeRune (s.data.drop s.pos)).1,
      { s with pos := s.pos + (decodeRune (s.data.drop s.pos)).2 }) := by
  unfold Scanner.read
  rw [if_neg (by omega)]

theorem decodeRune_cons_ascii {c : Nat} (rest : List Nat) (hc : c < 0x80) :
    decodeRune (c :: rest) = (c, 1) := by
  simp [decodeRune, hc]

theorem read_cons {s : Scanner} {c : Nat} {rest : List Nat}
    (hd : s.data.drop s.pos = c :: rest) (hc : c < 0x80) :
    s.read = (c, { s with pos := s.pos + 1 }) ∧
      s.data.drop (s.pos + 1) = rest := by
  have hlt : s.pos < s.data.length := by
    by_contra hcon
    rw [List.drop_eq_nil_of_le (by omega)] at hd
    exact List.noConfusion hd
  constructor
  · rw [read_lt hlt, hd, decodeRune_cons_ascii rest hc]
  · have h2 : (s.data.drop s.pos).drop 1 = rest := by
      rw [hd]
      rfl
    rw [List.drop_drop] at h2
    exact h2

theorem head?_mem {l : List Nat} {a : Nat} (h : l.head? = some a) : a ∈ l := by
  cases l with
  | nil => simp at h
  | cons b t =>
    simp at h
    rw [h]
    exact List.mem_cons_self _ _

theorem take_one_of_head? {l : List Nat} {a : Nat} (h : l.head? = some a) :
    l.take 1 = [a] := by
  cases l with
  | nil => simp at h
  | cons b t =>
    simp at h
    rw [h]
    rfl

theorem decodeRune_take_not_mem {l : List Nat} {c : Nat} (hc : c < 0x80)
    (hne : (decodeRune l).1 ≠ c) : c ∉ l.take (decodeRune l).2 := by
  rcases l with _ | ⟨b0, _ | ⟨b1, _ | ⟨b2, _ | ⟨b3, rest⟩⟩⟩⟩
  · simp
  all_goals simp only [decodeRune] at hne ⊢
  all_goals split_ifs at hne ⊢ <;>
    (dsimp only at hne ⊢; simp only [List.take, List.mem_cons, List.not_mem_nil, or_false];
     omega)

theorem count_split (l : List Nat) (n c : Nat) :
    l.count c = (l.take n).count c + (l.drop n).count c := by
  conv_lhs => rw [← List.take_append_drop n l]
  rw [List.count_append]

/-- Invariant of the group-scanning loop on quote-free, NUL-free input: the
open-group counter plus the `(`-count of the remaining input equals the
`)`-count of the remaining input, so the loop always terminates by
matching the closing bracket, with counter 0 and no error. -/
theorem scanGroupLoop_balanced (fuel : Nat) : ∀ buf og s,
    s.data.length - s.pos < fuel →
    (∀ c ∈ s.data.drop s.pos, c ≠ 34 ∧ c ≠ 39 ∧ c ≠ 0) →
    1 ≤ og →
    og + (s.data.drop s.pos).count 40 = (s.data.drop s.pos).count 41 →
    (scanGroupLoop fuel buf og s).1.2.1 = 0 ∧
    (scanGroupLoop fuel buf og s).1.2.2 = none := by
  induction fuel with
  | zero =>
    intro buf og s hfuel hq hog hinv
    omega
  | succ fuel ih =>
    intro buf og s hfuel hq hog hinv
    have hrem : s.data.drop s.pos ≠ [] := by
      intro hnil
      rw [hnil] at hinv
      simp at hinv
      omega
    have hlt : s.pos < s.data.length := by
      by_contra hcon
      exact hrem (List.drop_eq_nil_of_le (by omega))
    have hread := read_lt hlt
    set rem := s.data.drop s.pos with hremdef
    have hch : (s.read).1 = (decodeRune rem).1 := by rw [hread]
    have hsz1 : 1 ≤ (decodeRune rem).2 := decodeRune_size_pos hrem
    have hszle : (decodeRune rem).2 ≤ rem.length := decodeRune_size_le rem
    have hremlen : rem.length = s.data.length - s.pos := by
      rw [hremdef, List.length_drop]
    have hpos' : ((s.read).2).pos = s.pos + (decodeRune rem).2 := by rw [hread]
    have hdata' : ((s.read).2).data = s.data := by rw [hread]
    have hdrop' : ((s.read).2).data.drop ((s.read).2).pos = rem.drop (decodeRune rem).2 := by
      rw [hpos', hdata', hremdef, ← List.drop_drop]
    have hq' : ∀ c ∈ ((s.read).2).data.drop ((s.read).2).pos, c ≠ 34 ∧ c ≠ 39 ∧ c ≠ 0 := by
      rw [hdrop']
      intro c hcmem
      exact hq c (List.drop_subset _ _ hcmem)
    have hfuel' : ((s.read).2).data.length - ((s.read).2).pos < fuel := by
      rw [hpos', hdata']
      omega
    have hcount : ∀ c : Nat, rem.count c =
        (rem.take (decodeRune rem).2).count c + (rem.drop (decodeRune rem).2).count c :=
      fun c => count_split rem _ c
    rw [scanGroupLoop.eq_2]
    by_cases h0 : ((s.read).1 == 0) = true
    · exfalso
      have h0' : (decodeRune rem).1 = 0 := by
        rw [← hch]
        simpa using h0
      have hhead := (decodeRune_ascii (l := rem) (by rw [h0']; decide)).2
      rw [h0'] at hhead
      exact (hq 0 (head?_mem hhead)).2.2 rfl
    rw [if_neg h0]
    by_cases h40 : isGroupStartRune (s.read).1 = true
    · rw [if_pos h40]
      have h40' : (decodeRune rem).1 = 40 := by
        rw [← hch]
        simpa [isGroupStartRune] using h40
      have hsz : (decodeRune rem).2 = 1 := (decodeRune_ascii (by rw [h40']; decide)).1
      have hhead : rem.head? = some 40 := by
        have := (decodeRune_ascii (l := rem) (by rw [h40']; decide)).2
        rw [h40'] at this
        exact this
      have htake : rem.take (decodeRune rem).2 = [40] := by
        rw [hsz]
        exact take_one_of_head? hhead
      apply ih
      · exact hfuel'
      · exact hq'
      · omega
      · rw [hdrop']
        have e40 := hcount 40
        have e41 := hcount 41
        rw [htake] at e40 e41
        simp at e40 e41
        omega
    rw [if_neg h40]
    by_cases htxt : isTextStartRune (s.read).1 = true
    · exfalso
      have htxt' : (decodeRune rem).1 = 39 ∨ (decodeRune rem).1 = 34 := by
        rw [← hch]
        simpa [isTextStartRune] using htxt
      have hlt128 : (decodeRune rem).1 < 0x80 := by rcases htxt' with h | h <;> omega
      have hhead := (decodeRune_ascii hlt128).2
      have hmem : (decodeRune rem).1 ∈ rem := head?_mem hhead
      rcases htxt' with h | h
      · exact (hq _ hmem).2.1 h
      · exact (hq _ hmem).1 h
    rw [if_neg htxt]
    by_cases h41 : ((s.read).1 == 41) = true
    · rw [if_pos h41]
      have h41' : (decodeRune rem).1 = 41 := by
        rw [← hch]
        simpa using h41
      have hsz : (decodeRune rem).2 = 1 := (decodeRune_ascii (by rw [h41']; decide)).1
      have hhead : rem.head? = some 41 := by
        have := (decodeRune_ascii (l := rem) (by rw [h41']; decide)).2
        rw [h41'] at this
        exact this
      have htake : rem.take (decodeRune rem).2 = [41] := by
        rw [hsz]
        exact take_one_of_head? hhead
      have e40 := hcount 40
      have e41 := hcount 41
      rw [htake] at e40 e41
      simp at e40 e41
      by_cases hogz : (og - 1 == 0) = true
      · rw [if_pos hogz]
        constructor
        · simpa using hogz
        · rfl
      · rw [if_neg hogz]
        apply ih
        · exact hfuel'
        · exact hq'
        · simp at hogz
          omega
        · rw [hdrop']
          omega
    rw [if_neg h41]
    apply ih
    · exact hfuel'
    · exact hq'
    · exact hog
    · rw [hdrop']
      have hne40 : (decodeRune rem).1 ≠ 40 := by
        intro hc
        apply h40
        simp [isGroupStartRune, hch, hc]
      have hne41 : (decodeRune rem).1 ≠ 41 := by
        intro hc
        apply h41
        simp [hch, hc]
      have hnm40 := decodeRune_take_not_mem (l := rem) (by decide) hne40
      have hnm41 := decodeRune_take_not_mem (l := rem) (by decide) hne41
      have e40 := hcount 40
      have e41 := hcount 41
      rw [List.count_eq_zero_of_not_mem hnm40] at e40
      rw [List.count_eq_zero_of_not_mem hnm41] at e41
      omega

/-- **C4** counterexample: the input `((")")` (bytes 40 40 34 41 34 41) has
equal `(`/`)` counts and every `)` is preceded by an unmatched `(`, yet
`scanGroup` fails with a missing-closing-bracket error: the quoted segment
`")"` hides one closing bracket from the group counter. -/
theorem c4_counterexample :
    ([40, 40, 34, 41, 34, 41] : List Nat).count 40 =
      ([40, 40, 34, 41, 34, 41] : List Nat).count 41 ∧
    (∀ n : Nat, (([40, 40, 34, 41, 34, 41] : List Nat).take n).count 41 ≤
      (([40, 40, 34, 41, 34, 41] : List Nat).take n).count 40) ∧
    ((NewScanner [40, 40, 34, 41, 34, 41]).scanGroup).1.2 = some (.missingBrackets 1) := by
  refine ⟨by decide, ?_, rfl⟩
  intro n
  by_cases hn : n ≤ 6
  · interval_cases n <;> decide
  · rw [List.take_of_length_le (by simp; omega)]
    decide

/-- **C4** (amended): for every input string that starts with `(` and
contains no quote character and no NUL byte, if the count of `(` equals the
count of `)` and every `)` is preceded by an unmatched `(`, then
`scanGroup` never fails with a missing closing bracket(s) error. -/
theorem c4_balanced_group_no_missing (input : List Nat)
    (hstart : input.head? = some 40)
    (hfree : ∀ c ∈ input, c ≠ 34 ∧ c ≠ 39 ∧ c ≠ 0)
    (hcnt : input.count 40 = input.count 41)
    (hpre : ∀ n : Nat, (input.take n).count 41 ≤ (input.take n).count 40) :
    ∀ k, ((NewScanner input).scanGroup).1.2 ≠ some (.missingBrackets k) := by
  rcases input with _ | ⟨b, rest⟩
  · simp at hstart
  have hb : b = 40 := by simpa using hstart
  subst hb
  have hrc := @read_cons (NewScanner (40 :: rest)) 40 rest (by rfl) (by decide)
  have hread : (NewScanner (40 :: rest)).read =
      (40, { data := 40 :: rest, pos := 1, maxFuncDepth := 3 }) := hrc.1
  have hloop := scanGroupLoop_balanced
    (({ data := 40 :: rest, pos := 1, maxFuncDepth := 3 } : Scanner).data.length + 1 -
      ({ data := 40 :: rest, pos := 1, maxFuncDepth := 3 } : Scanner).pos)
    [] 1 { data := 40 :: rest, pos := 1, maxFuncDepth := 3 }
    (by simp)
    (by
      intro c hc
      simp at hc
      exact hfree c (List.mem_cons_of_mem _ hc))
    (by omega)
    (by
      have h1 : (40 :: rest).count 40 = rest.count 40 + 1 := by
        simp [List.count_cons]
      have h2 : (40 :: rest).count 41 = rest.count 41 := by
        simp [List.count_cons]
      show 1 + rest.count 40 = rest.count 41
      omega)
  obtain ⟨hog0, hterr⟩ := hloop
  intro k
  simp only [Scanner.scanGroup, hread]
  rw [hterr]  -- hmm, may need positioning
  rw [hog0]
  simp [isGroupStartRune]

theorem escapeQuote_cons_q (q : Nat) (t : List Nat) :
    escapeQuote q (q :: t) = 92 :: q :: escapeQuote q t := by
  simp [escapeQuote]

theorem escapeQuote_cons_ne (q c : Nat) (h : (c == q) = false) (t : List Nat) :
    escapeQuote q (c :: t) = c :: escapeQuote q t := by
  simp [escapeQuote, h]

/-- The escaped body never starts with the bare quote character: a leading
quote in the source gains a backslash prefix. -/
theorem escapeQuote_head_ne (q : Nat) (hq92 : q ≠ 92) (t : List Nat) :
    ∀ x rest, escapeQuote q t = x :: rest → x ≠ q := by
  cases t with
  | nil => intro x rest h; simp [escapeQuote] at h
  | cons c t' =>
    intro x rest h
    by_cases hc : (c == q) = true
    · rw [show c = q from by simpa using hc, escapeQuote_cons_q] at h
      injection h with h1 h2
      intro hx
      rw [hx] at h1
      exact hq92 h1.symm
    · rw [escapeQuote_cons_ne q c (by simpa using hc) t'] at h
      injection h with h1 h2
      intro hx
      apply hc
      rw [h1, hx]
      exact beq_self_eq_true q

/-- The unquote step of `scanText` (Go `strings.ReplaceAll` of `\q` by `q`)
inverts the escaping, for any source string. -/
theorem replaceAllLoop_unescape (q : Nat) (hq : q = 34 ∨ q = 39) :
    ∀ (s : List Nat) (fuel : Nat), (escapeQuote q s).length < fuel →
      replaceAllLoop fuel (escapeQuote q s) [92, q] [q] = s := by
  intro s
  induction s with
  | nil =>
    intro fuel hfuel
    cases fuel with
    | zero => omega
    | succ f => simp [escapeQuote, replaceAllLoop]
  | cons c t ih =>
    intro fuel hfuel
    by_cases hc : (c == q) = true
    · rw [show c = q from by simpa using hc] at hfuel ⊢
      rw [escapeQuote_cons_q] at hfuel ⊢
      cases fuel with
      | zero => omega
      | succ f =>
        simp only [replaceAllLoop]
        rw [if_pos (by simp [List.isPrefixOf])]
        have hlen : (escapeQuote q t).length < f := by
          simp at hfuel; omega
        rw [show (92 :: q :: escapeQuote q t).drop [92, q].length = escapeQuote q t
          from rfl]
        rw [ih f hlen]
        rfl
    · rw [escapeQuote_cons_ne q c (by simpa using hc) t] at hfuel ⊢
      cases fuel with
      | zero => omega
      | succ f =>
        simp only [replaceAllLoop]
        have hnp : ([92, q].isPrefixOf (c :: escapeQuote q t)) = false := by
          by_cases hc92 : c = 92
          · subst hc92
            rcases hE : escapeQuote q t with _ | ⟨x, r⟩
            · simp [List.isPrefixOf]
            · have hxq : x ≠ q := escapeQuote_head_ne q
                (by rcases hq with rfl | rfl <;> decide) t x r hE
              simp [List.isPrefixOf, Ne.symm hxq]
          · simp [List.isPrefixOf, Ne.symm hc92]
        rw [if_neg (by simp [hnp])]
        have hlen : (escapeQuote q t).length < f := by
          simp at hfuel; omega
        rw [ih f hlen]

theorem replaceAll_unescape (q : Nat) (hq : q = 34 ∨ q = 39) (s : List Nat) :
    replaceAll (escapeQuote q s) [92, q] [q] = s := by
  unfold replaceAll
  exact replaceAllLoop_unescape q hq s _ (by omega)

/-- The text read loop consumes the escaped body and stops exactly at the
closing quote (provided the body does not end in a bare backslash, which
would escape the closing quote). -/
theorem scanTextLoop_escape (q : Nat) (hq : q = 34 ∨ q = 39) :
    ∀ (s : List Nat), (∀ c ∈ s, 0 < c ∧ c < 0x80) →
      s.getLast? ≠ some 92 →
      ∀ (prev : Nat), (s = [] → prev ≠ 92) →
      ∀ (buf : List Nat) (st : Scanner) (tail : List Nat),
        st.data.drop st.pos = escapeQuote q s ++ q :: tail →
        ∀ fuel, (escapeQuote q s).length + 1 ≤ fuel →
        scanTextLoop q fuel buf prev st =
          ((buf ++ (escapeQuote q s ++ [q]), true),
           { st with pos := st.pos + ((escapeQuote q s).length + 1) }) := by
  have hq0 : (q == 0) = false := by rcases hq with rfl | rfl <;> rfl
  have hq92f : (92 == q) = false := by rcases hq with rfl | rfl <;> rfl
  have hqlt : q < 0x80 := by rcases hq with rfl | rfl <;> decide
  intro s
  induction s with
  | nil =>
    intro _ _ prev hprev buf st tail hdrop fuel hfuel
    cases fuel with
    | zero => simp [escapeQuote] at hfuel
    | succ f =>
      rw [escapeQuote] at hdrop
      have hrc := @read_cons st q tail hdrop hqlt
      simp only [scanTextLoop, hrc.1]
      rw [if_neg (by simp [hq0])]
      rw [if_pos (by simp [beq_self_eq_true, hprev rfl])]
      rw [encodeRune_ascii hqlt]
      simp [escapeQuote]
  | cons c t ih =>
    intro hs hlast prev _ buf st tail hdrop fuel hfuel
    have hst : ∀ x ∈ t, 0 < x ∧ x < 0x80 := fun x hx => hs x (List.mem_cons_of_mem _ hx)
    have hc0 : 0 < c := (hs c (List.mem_cons_self c t)).1
    have hclt : c < 0x80 := (hs c (List.mem_cons_self c t)).2
    by_cases hcq : (c == q) = true
    · rw [show c = q from by simpa using hcq] at hdrop hfuel ⊢
      rw [escapeQuote_cons_q] at hdrop hfuel ⊢
      cases fuel with
      | zero => simp at hfuel
      | succ f =>
        cases f with
        | zero => simp at hfuel
        | succ f2 =>
          have hrc := @read_cons st 92 (q :: (escapeQuote q t ++ q :: tail))
            (by simpa using hdrop) (by decide)
          simp only [scanTextLoop, hrc.1]
          rw [if_neg (by decide)]
          rw [if_neg (by simp [hq92f])]
          have hrc2 := @read_cons ((st.read).2) q (escapeQuote q t ++ q :: tail)
            (by rw [hrc.1]; exact hrc.2) hqlt
          rw [hrc.1] at hrc2
          simp only [scanTextLoop, hrc2.1]
          rw [if_neg (by simp [hq0])]
          rw [if_neg (by simp)]
          have hlast' : t.getLast? ≠ some 92 := by
            cases t with
            | nil => simp
            | cons a u => rw [List.getLast?_cons_cons] at hlast; exact hlast
          have hprev' : t = [] → q ≠ 92 := by
            intro _; rcases hq with rfl | rfl <;> decide
          have := ih hst hlast' q hprev'
            (buf ++ encodeRune 92 ++ encodeRune q)
            { st with pos := st.pos + 1 + 1 } tail
            hrc2.2 f2 (by simp at hfuel ⊢; omega)
          rw [this]
          rw [encodeRune_ascii hqlt, encodeRune_ascii (by decide : (92:Nat) < 0x80)]
          dsimp only
          have hb : buf ++ [92] ++ [q] ++ (escapeQuote q t ++ [q]) =
              buf ++ (92 :: q :: escapeQuote q t ++ [q]) := by simp
          have hp : st.pos + 1 + 1 + ((escapeQuote q t).length + 1) =
              st.pos + ((92 :: q :: escapeQuote q t).length + 1) := by
            simp only [List.length_cons]; omega
          rw [hb, hp]
    · have hcq' : c ≠ q := by simpa using hcq
      rw [escapeQuote_cons_ne q c (by simpa using hcq) t] at hdrop hfuel ⊢
      cases fuel with
      | zero => simp at hfuel
      | succ f =>
        have hrc := @read_cons st c (escapeQuote q t ++ q :: tail)
          (by simpa using hdrop) hclt
        simp only [scanTextLoop, hrc.1]
        rw [if_neg (by simp; omega)]
        rw [if_neg (by simp [hcq'])]
        have hlast' : t.getLast? ≠ some 92 := by
          cases t with
          | nil => simp
          | cons a u => rw [List.getLast?_cons_cons] at hlast; exact hlast
        have hprev' : t = [] → c ≠ 92 := by
          intro ht
          subst ht
          simp at hlast
          exact hlast
        have := ih hst hlast' c hprev' (buf ++ encodeRune c)
          { st with pos := st.pos + 1 } tail hrc.2 f (by simp at hfuel ⊢; omega)
        rw [this]
        rw [encodeRune_ascii hclt]
        dsimp only
        have hb : buf ++ [c] ++ (escapeQuote q t ++ [q]) =
            buf ++ (c :: escapeQuote q t ++ [q]) := by simp
        have hp : st.pos + 1 + ((escapeQuote q t).length + 1) =
            st.pos + ((c :: escapeQuote q t).length + 1) := by
          simp only [List.length_cons]; omega
        rw [hb, hp]

/-- **C3** counterexample: for the one-character string `\` (a bare
backslash, byte 92) with quote character `"`, the serialized form `"\"`
scans to an invalid-text error and the re-serialized literal differs from
the original escaped form: the backslash escapes the closing quote. -/
theorem c3_counterexample :
    quoteSerialize 34 [92] = [34, 92, 34] ∧
    ((NewScanner (quoteSerialize 34 [92])).scanText false).1.2 =
      some (.invalidText [34, 92, 34]) ∧
    quoteSerialize 34 (((NewScanner (quoteSerialize 34 [92])).scanText false).1.1).literal ≠
      quoteSerialize 34 [92] := by
  exact ⟨rfl, rfl, by decide⟩

/-- **C3** (amended): for either quote character and any nonempty-or-empty
ASCII string without NUL bytes that does not end in a backslash, scanning
the serialized quoted escaped form yields an error-free `Text` token whose
literal is the original string, and re-serializing that literal reproduces
the original escaped form. -/
theorem c3_text_roundtrip (q : Nat) (hq : q = 34 ∨ q = 39) (s : List Nat)
    (hs : ∀ c ∈ s, 0 < c ∧ c < 0x80) (hlast : s.getLast? ≠ some 92) :
    ((NewScanner (quoteSerialize q s)).scanText false).1 =
      (Token.mk .text s [], none) ∧
    quoteSerialize q (((NewScanner (quoteSerialize q s)).scanText false).1.1).literal =
      quoteSerialize q s := by
  have hqlt : q < 0x80 := by rcases hq with rfl | rfl <;> decide
  have hrc := @read_cons (NewScanner (quoteSerialize q s)) q
    (escapeQuote q s ++ [q]) (by simp [NewScanner, quoteSerialize]) hqlt
  have hread : (NewScanner (quoteSerialize q s)).read =
      (q, { data := quoteSerialize q s, pos := 1, maxFuncDepth := 3 }) := hrc.1
  have hloop := scanTextLoop_escape q hq s hs hlast 0 (by intro _; decide)
    (encodeRune q) { data := quoteSerialize q s, pos := 1, maxFuncDepth := 3 } []
    (by simpa [NewScanner] using hrc.2)
    ((quoteSerialize q s).length + 1 - 1) (by simp [quoteSerialize])
  have hmain : ((NewScanner (quoteSerialize q s)).scanText false).1 =
      (Token.mk .text s [], none) := by
    simp only [Scanner.scanText, hread]
    rw [hloop]
    simp only [Bool.not_true, Bool.not_false]
    rw [if_neg (by simp)]
    rw [if_pos (by simp)]
    rw [encodeRune_ascii hqlt]
    have hbody : (([q] ++ (escapeQuote q s ++ [q])).drop 1).dropLast = escapeQuote q s := by
      simp
    rw [hbody]
    rw [show ([92] ++ [q] : List Nat) = [92, q] from rfl]
    rw [replaceAll_unescape q hq s]
  refine ⟨hmain, ?_⟩
  rw [hmain]
  rfl

/-- Witness for `c3_text_roundtrip` at `q` the double quote and string `a`. -/
theorem c3_text_roundtrip_witness :
    ((NewScanner (quoteSerialize 34 [97])).scanText false).1 =
      (Token.mk .text [97] [], none) ∧
    quoteSerialize 34 (((NewScanner (quoteSerialize 34 [97])).scanText false).1.1).literal =
      quoteSerialize 34 [97] :=
  c3_text_roundtrip 34 (Or.inl rfl) [97] (by decide) (by decide)

/-- Witness for `c4_balanced_group_no_missing` at the concrete input `(a)`. -/
theorem c4_balanced_group_no_missing_witness :
    ((NewScanner [40, 97, 41]).scanGroup).1.2 ≠ some (.missingBrackets 1) :=
  c4_balanced_group_no_missing [40, 97, 41] rfl (by decide) (by decide)
    (by
      intro n
      by_cases hn : n ≤ 3
      · interval_cases n <;> decide
      · rw [List.take_of_length_le (by simp; omega)]
        decide) 1

end Fexpr
